import Mathlib

/-!
Verification of the Tropico 5 HPK unpacker core (src/hpk.rs) against its
natural-language specification.

The archive file is modelled as a list of byte values (`List Nat`); reads
return `Except HpkError`, with `HpkError.ioError` standing for any underlying
I/O failure (in particular a `read_exact` hitting end of file).  Rust panics
are modelled by dedicated error constructors so that their (un)reachability
can be stated.  Machine arithmetic is exact except where the source can wrap
in release builds, where the wrap is made explicit (`% 2^64`).
-/

namespace Hpk

/-- Size of one file-table row (FILE_ENTRY_SIZE in the source). -/
def FILE_ENTRY_SIZE : Nat := 8

/-- Minimum serialized size of a name entry (NAME_ENTRY_MIN_SIZE). -/
def NAME_ENTRY_MIN_SIZE : Nat := 10

/-- Offset of the block table inside a ZLIB payload (ZLIB_BLOCKTBL_OFFSET). -/
def ZLIB_BLOCKTBL_OFFSET : Nat := 12

/-- Cache capacity for decoded blocks (ZLIB_MAX_CACHE_ENTRIES). -/
def ZLIB_MAX_CACHE_ENTRIES : Nat := 2

/-- Maximum accepted block size (ZLIB_MAX_BLOCKSIZE). -/
def ZLIB_MAX_BLOCKSIZE : Nat := 0x1000000

/-- 2^64, used to make u64 wrapping subtraction explicit. -/
def U64 : Nat := 18446744073709551616

/-- Error kinds of the core.  Rust uses error-chain strings and io::Error;
each bail site is mapped to the concept-level kind named by the spec.  The
three constructors prefixed with panic model the panic sites of the source
(the index check in read_block_offset_and_size, the two explicit panics of
evict_another_entry together with the unwrap on an empty key set, and a
slice-index-out-of-range in the read copy loop).  fuelExhausted is a model
artifact marking non-termination of a source loop. -/
inductive HpkError where
  | ioError
  | headerInvalid
  | indexZero
  | unknownKind
  | nameEntrySpanOverrun
  | depthExceeded
  | directoryCycle
  | zlibHeaderInvalid
  | blockOverlarge
  | seekOutOfRange
  | inflateFailure
  | panicIdxOutOfRange
  | panicEvictEmpty
  | panicEvictOnly
  | panicSliceOOB
  | fuelExhausted
  deriving DecidableEq, Repr

/-- Little-endian interpretation of a byte list (low byte first). -/
def bytesToNat (l : List Nat) : Nat :=
  l.foldr (fun b acc => b + 256 * acc) 0

/-- Read exactly n bytes starting at off; models seek + read_exact on the
underlying file, which fails iff fewer than n bytes are available there. -/
def readBytes (data : List Nat) (off n : Nat) : Option (List Nat) :=
  if off + n ≤ data.length then some ((data.drop off).take n) else none

/-- Little-endian u32 at an absolute offset (total function, for statements). -/
def u32At (data : List Nat) (off : Nat) : Nat :=
  bytesToNat ((data.drop off).take 4)

/-- File-table row: offset and size (FileTableEntry in the source). -/
structure FileTableEntry where
  offset : Nat
  size : Nat
  deriving DecidableEq, Repr

/-- Kind of a name-table entry (EntryType). -/
inductive EntryType where
  | file
  | directory
  deriving DecidableEq, Repr

/-- Name-table entry (NameTableEntry).  The name is kept as raw bytes; the
lossy UTF-8 decoding of the source is irrelevant to the claims. -/
structure NameTableEntry where
  file_index : Nat
  entry_type : EntryType
  entry_size : Nat
  name : List Nat
  deriving DecidableEq, Repr

/-- A file of the tree (File). -/
structure File where
  name_entry : NameTableEntry
  file_entry : FileTableEntry
  deriving DecidableEq, Repr

/-- A directory of the tree (Directory); the root has no name entry. -/
inductive Directory where
  | mk (files : List File) (directories : List Directory)
       (name_entry : Option NameTableEntry) (file_entry : FileTableEntry)

/-- Files directly contained in a directory. -/
def Directory.files : Directory → List File
  | .mk fs _ _ _ => fs

/-- Subdirectories directly contained in a directory. -/
def Directory.directories : Directory → List Directory
  | .mk _ ds _ _ => ds

/-- Name entry of a directory (none for the root). -/
def Directory.name_entry : Directory → Option NameTableEntry
  | .mk _ _ ne _ => ne

/-- File-table entry of a directory. -/
def Directory.file_entry : Directory → FileTableEntry
  | .mk _ _ _ fe => fe

/-- ArchiveFile::read_header: seek to 0, read 32 bytes, decode magic,
header_size and filetbl_offset, and apply the four validity checks. -/
def read_header (data : List Nat) : Except HpkError Nat :=
  match readBytes data 0 32 with
  | none => .error .ioError
  | some buf =>
    let magic := bytesToNat (buf.take 4)
    let headerSize := bytesToNat ((buf.drop 4).take 4)
    let filetblOffset := bytesToNat (buf.drop 28)
    if magic ≠ 0x4c555042 then .error .headerInvalid
    else if headerSize < 0x20 then .error .headerInvalid
    else if 0x24 < headerSize then .error .headerInvalid
    else if filetblOffset < headerSize then .error .headerInvalid
    else .ok filetblOffset

/-- ArchiveFile::read_file_entry: 1-based index into the file table at ftbl;
index 0 is rejected, then 8 bytes are read at ftbl + (index-1)*8. -/
def read_file_entry (data : List Nat) (ftbl : Nat) (index : Nat) :
    Except HpkError FileTableEntry :=
  if index = 0 then .error .indexZero
  else
    match readBytes data (ftbl + (index - 1) * 8) 8 with
    | none => .error .ioError
    | some buf => .ok ⟨bytesToNat (buf.take 4), bytesToNat ((buf.drop 4).take 4)⟩

/-- ArchiveFile::read_name_entry: 10 fixed bytes (file_index, kind, name_len)
followed by name_len bytes of name; entry_size = 10 + name_len. -/
def read_name_entry (data : List Nat) (offset : Nat) :
    Except HpkError NameTableEntry :=
  match readBytes data offset 10 with
  | none => .error .ioError
  | some buf =>
    let index := bytesToNat (buf.take 4)
    if index = 0 then .error .indexZero
    else
      match bytesToNat ((buf.drop 4).take 4) with
      | 0 =>
        let nameLen := bytesToNat (buf.drop 8)
        match readBytes data (offset + 10) nameLen with
        | none => .error .ioError
        | some nm => .ok ⟨index, .file, 10 + nameLen, nm⟩
      | 1 =>
        let nameLen := bytesToNat (buf.drop 8)
        match readBytes data (offset + 10) nameLen with
        | none => .error .ioError
        | some nm => .ok ⟨index, .directory, 10 + nameLen, nm⟩
      | _ => .error .unknownKind

/-- The name-entry loop of ArchiveFile::read_directory_loop, parametrized by
the recursive resolution function for subdirectories.  Iterates over the
region [cur, maxOff), reading one name entry per step; an entry whose end
would pass maxOff is rejected.  The fuel only bounds the iteration count and
is always instantiated large enough (one entry consumes at least 10 bytes). -/
def rdlEntries (data : List Nat) (ftbl : Nat)
    (recurse : Nat → List Nat → Except HpkError Directory) :
    Nat → List Nat → Nat → Nat →
    Except HpkError (List File × List Directory)
  | 0, _, _, _ => .error .fuelExhausted
  | efuel+1, stack, maxOff, cur =>
    if cur < maxOff then
      match read_name_entry data cur with
      | .error e => .error e
      | .ok nentry =>
        if maxOff < cur + nentry.entry_size then .error .nameEntrySpanOverrun
        else
          match read_file_entry data ftbl nentry.file_index with
          | .error e => .error e
          | .ok fentry =>
            match nentry.entry_type with
            | .file =>
              match rdlEntries data ftbl recurse efuel stack maxOff
                      (cur + nentry.entry_size) with
              | .error e => .error e
              | .ok (files, dirs) => .ok (⟨nentry, fentry⟩ :: files, dirs)
            | .directory =>
              match recurse nentry.file_index stack with
              | .error e => .error e
              | .ok undir =>
                match rdlEntries data ftbl recurse efuel stack maxOff
                        (cur + nentry.entry_size) with
                | .error e => .error e
                | .ok (files, dirs) =>
                  .ok (files,
                       Directory.mk undir.files undir.directories
                         (some nentry) undir.file_entry :: dirs)
    else .ok ([], [])

/-- ArchiveFile::read_directory_loop: read the directory's file-table row,
check the depth bound (strictly more than 128 on the stack fails) and the
cycle guard, then parse the name entries of [offset, offset+size).  The fuel
bounds the recursion depth; any fuel above 130 is enough for a tree the
source accepts. -/
def rdl (data : List Nat) (ftbl : Nat) : Nat → Nat → List Nat →
    Except HpkError Directory
  | 0, _, _ => .error .fuelExhausted
  | fuel+1, index, stack =>
    match read_file_entry data ftbl index with
    | .error e => .error e
    | .ok dentry =>
      if 128 < stack.length then .error .depthExceeded
      else if stack.contains index then .error .directoryCycle
      else
        match rdlEntries data ftbl (rdl data ftbl fuel) (dentry.size + 1)
                (stack ++ [index]) (dentry.offset + dentry.size)
                dentry.offset with
        | .error e => .error e
        | .ok (files, dirs) => .ok (Directory.mk files dirs none dentry)

/-- Archive::open restricted to its pure content: parse the header, then
resolve the tree rooted at file-table index 1 with an empty path. -/
def openArchive (data : List Nat) : Except HpkError Directory :=
  match read_header data with
  | .error e => .error e
  | .ok ftbl => rdl data ftbl 200 1 []

/-- Plain file data view (FileDataPlain).  Besides the source's size,
base_offset and cur_offset fields, file_pos models the operating-system
cursor of the owned file handle, on which the source's read relies. -/
structure FileDataPlain where
  size : Nat
  base_offset : Nat
  cur_offset : Nat
  file_pos : Nat
  deriving DecidableEq, Repr

/-- FileDataPlain::from: the handle was seeked to fentry.offset by
FileData::new just before the variant takes ownership. -/
def plainFrom (fentry : FileTableEntry) : FileDataPlain :=
  ⟨fentry.size, fentry.offset, 0, fentry.offset⟩

/-- One Read::read call on FileDataPlain: clamp the requested length to
size - cur_offset, then read from the handle at its current position (a fs
read returns the bytes available up to end of file, never failing here). -/
def plainRead (data : List Nat) (st : FileDataPlain) (bufLen : Nat) :
    List Nat × FileDataPlain :=
  let readable := min (st.size - st.cur_offset) bufLen
  let got := min readable (data.length - st.file_pos)
  ((data.drop st.file_pos).take got,
   { st with cur_offset := st.cur_offset + got, file_pos := st.file_pos + got })

/-- Read::read_exact over plainRead: repeatedly read into the remaining
buffer, failing with an I/O error when a read returns 0 bytes while bytes
are still missing.  Each successful round reads at least one byte, so the
structural fuel (initialized to n by plainReadExact) never runs out; the
fuel-0 case with bytes missing is unreachable and also reports the I/O
error. -/
def plainReadExactAux (data : List Nat) :
    Nat → FileDataPlain → Nat → Except HpkError (List Nat × FileDataPlain)
  | 0, st, n => if n = 0 then .ok ([], st) else .error .ioError
  | fuel+1, st, n =>
    if n = 0 then .ok ([], st)
    else
      let r := plainRead data st n
      if r.1.length = 0 then .error .ioError
      else
        match plainReadExactAux data fuel r.2 (n - r.1.length) with
        | .error e => .error e
        | .ok (rest, st2) => .ok (r.1 ++ rest, st2)

/-- Read exactly n bytes through the plain view. -/
def plainReadExact (data : List Nat) (st : FileDataPlain) (n : Nat) :
    Except HpkError (List Nat × FileDataPlain) :=
  plainReadExactAux data n st n

/-- A seek request (std::io::SeekFrom). -/
inductive SeekFrom where
  | start (o : Nat)
  | fromEnd (o : Int)
  | current (o : Int)

/-- Seek for FileDataPlain: compute the logical target, reject targets
outside [0, size], otherwise seek the handle to base_offset + target (the
underlying OS seek succeeds and returns the requested position). -/
def plainSeek (st : FileDataPlain) : SeekFrom →
    Except HpkError (Nat × FileDataPlain)
  | .start o =>
    if st.size < o then .error .seekOutOfRange
    else .ok (o, { st with cur_offset := o, file_pos := st.base_offset + o })
  | .fromEnd o =>
    let wanted : Int := (st.size : Int) + o
    if 0 < o then .error .seekOutOfRange
    else if wanted < 0 then .error .seekOutOfRange
    else .ok (wanted.toNat,
      { st with cur_offset := wanted.toNat,
                file_pos := st.base_offset + wanted.toNat })
  | .current o =>
    let wanted : Int := (st.cur_offset : Int) + o
    if wanted < 0 then .error .seekOutOfRange
    else if (st.size : Int) < wanted then .error .seekOutOfRange
    else .ok (wanted.toNat,
      { st with cur_offset := wanted.toNat,
                file_pos := st.base_offset + wanted.toNat })

/-- The block cache of a ZLIB view, modelling the HashMap from block index
to decoded bytes as an association list with distinct keys. -/
abbrev Cache := List (Nat × List Nat)

/-- HashMap::contains_key. -/
def cacheContains (c : Cache) (k : Nat) : Bool :=
  c.any (fun p => p.1 == k)

/-- HashMap::get. -/
def cacheGet (c : Cache) (k : Nat) : Option (List Nat) :=
  (c.find? (fun p => p.1 == k)).map (fun p => p.2)

/-- HashMap::remove (by key). -/
def cacheRemove (c : Cache) (k : Nat) : Cache :=
  c.filter (fun p => !(p.1 == k))

/-- Keys of the cache. -/
def cacheKeys (c : Cache) : List Nat := c.map (fun p => p.1)

/-- Minimum of a key list (keys().min()). -/
def listMin : List Nat → Option Nat
  | [] => none
  | x :: xs => some (xs.foldl Nat.min x)

/-- Maximum of a key list (keys().max()). -/
def listMax : List Nat → Option Nat
  | [] => none
  | x :: xs => some (xs.foldl Nat.max x)

/-- ZLIB file data view (FileDataZlib): the plain view over the packed
bytes, the expanded size, the logical cursor, the block size and the cache. -/
structure FileDataZlib where
  plain : FileDataPlain
  size : Nat
  cur_offset : Nat
  blocksize : Nat
  cache : Cache
  deriving DecidableEq, Repr

/-- FileDataZlib::parse_header: 12-byte header ZLIB magic, expanded size,
block size; block size 0 or above ZLIB_MAX_BLOCKSIZE is rejected. -/
def parse_zlib_header (header : List Nat) : Except HpkError (Nat × Nat) :=
  if header.take 4 = [0x5A, 0x4C, 0x49, 0x42] then
    let size := bytesToNat ((header.drop 4).take 4)
    let blocksize := bytesToNat ((header.drop 8).take 4)
    if blocksize = 0 then .error .zlibHeaderInvalid
    else if ZLIB_MAX_BLOCKSIZE < blocksize then .error .zlibHeaderInvalid
    else .ok (size, blocksize)
  else .error .zlibHeaderInvalid

/-- FileDataZlib::from: build the plain view, read the 12-byte ZLIB header
through it (so the read is clamped by fentry.size) and parse it. -/
def zlibFrom (data : List Nat) (fentry : FileTableEntry) :
    Except HpkError FileDataZlib :=
  match plainReadExact data (plainFrom fentry) 12 with
  | .error e => .error e
  | .ok (header, plain1) =>
    match parse_zlib_header header with
    | .error e => .error e
    | .ok (size, blocksize) => .ok ⟨plain1, size, 0, blocksize, []⟩

/-- FileDataZlib::evict_another_entry: panic on an empty cache or when idx
is the only entry; otherwise remove the smallest key, or the largest when
the smallest equals idx.  The unwrap of keys().min()/max() on an empty key
set is modelled by the panicEvictEmpty error as well. -/
def evict_another_entry (c : Cache) (idx : Nat) : Except HpkError Cache :=
  if c.length = 0 then .error .panicEvictEmpty
  else if c.length = 1 ∧ cacheContains c idx = true then .error .panicEvictOnly
  else
    match listMin (cacheKeys c) with
    | none => .error .panicEvictEmpty
    | some mn =>
      if mn = idx then
        match listMax (cacheKeys c) with
        | none => .error .panicEvictEmpty
        | some mx => .ok (cacheRemove c mx)
      else .ok (cacheRemove c mn)

/-- The while loop of get_block: evict entries other than idx while the
cache holds ZLIB_MAX_CACHE_ENTRIES or more.  Each successful eviction
removes a present key, so c.length is enough fuel; the fuel-0 case mirrors
the loop guard and is unreachable. -/
def evictLoopAux (idx : Nat) : Nat → Cache → Except HpkError Cache
  | 0, c => if ZLIB_MAX_CACHE_ENTRIES ≤ c.length then .error .fuelExhausted
            else .ok c
  | fuel+1, c =>
    if ZLIB_MAX_CACHE_ENTRIES ≤ c.length then
      match evict_another_entry c idx with
      | .error e => .error e
      | .ok c2 => evictLoopAux idx fuel c2
    else .ok c

/-- Entry point of the eviction loop. -/
def evictLoop (idx : Nat) (c : Cache) : Except HpkError Cache :=
  evictLoopAux idx c.length c

/-- Number of blocks of a ZLIB payload: ceil(size / blocksize), computed as
in read_block_offset_and_size. -/
def numBlocksOf (size blocksize : Nat) : Nat :=
  if 0 < size % blocksize then size / blocksize + 1 else size / blocksize

/-- Unpacked length of block idx as computed by the source: the partial
remainder size % blocksize for the last block, blocksize otherwise. -/
def unpackLenOf (size blocksize idx : Nat) : Nat :=
  if idx + 1 = numBlocksOf size blocksize then size % blocksize else blocksize

/-- FileDataZlib::read_block_offset_and_size: derive the block count from
expanded size and block size, panic when idx is out of range, then read the
packed start offset from the block table; the end offset is the next table
entry, or the packed payload size for the last block, whose unpacked size
is the partial remainder size % blocksize (the block count 0 branch of the
source is dead, since the index check fires first).  The u64 subtraction
end - start wraps in release builds and is modelled mod 2^64. -/
def read_block_offset_and_size (data : List Nat) (st : FileDataZlib)
    (idx : Nat) : Except HpkError ((Nat × Nat × Nat) × FileDataZlib) :=
  let partSize := st.size % st.blocksize
  let numBlocks := numBlocksOf st.size st.blocksize
  if numBlocks ≤ idx then .error .panicIdxOutOfRange
  else if numBlocks = 0 then .ok ((ZLIB_BLOCKTBL_OFFSET, 0, 0), st)
  else
    let lastBlock := numBlocks - 1
    match plainSeek st.plain (.start (ZLIB_BLOCKTBL_OFFSET + idx * 4)) with
    | .error e => .error e
    | .ok (_, p1) =>
      match plainReadExact data p1 4 with
      | .error e => .error e
      | .ok (buf, p2) =>
        let startOff := bytesToNat buf
        if idx = lastBlock then
          let endOff := p2.size
          let packSize := (endOff + U64 - startOff) % U64
          if st.blocksize < packSize then .error .blockOverlarge
          else .ok ((startOff, packSize, partSize), { st with plain := p2 })
        else
          match plainReadExact data p2 4 with
          | .error e => .error e
          | .ok (buf2, p3) =>
            let endOff := bytesToNat buf2
            let packSize := (endOff + U64 - startOff) % U64
            if st.blocksize < packSize then .error .blockOverlarge
            else .ok ((startOff, packSize, st.blocksize),
                      { st with plain := p3 })

/-- FileDataZlib::read_block: read the packed bytes of block idx; when the
packed and unpacked sizes match the block is stored raw, otherwise it is
inflated.  Inflation is abstracted by the parameter infl, which returns the
unpack_size bytes read out of the decoder or fails (decoder construction
errors and short decoder reads both map to inflateFailure). -/
def read_block (infl : List Nat → Nat → Option (List Nat))
    (data : List Nat) (st : FileDataZlib) (idx : Nat) :
    Except HpkError (List Nat × FileDataZlib) :=
  match read_block_offset_and_size data st idx with
  | .error e => .error e
  | .ok ((packStart, packSize, unpackSize), st1) =>
    match plainSeek st1.plain (.start packStart) with
    | .error e => .error e
    | .ok (_, p1) =>
      match plainReadExact data p1 packSize with
      | .error e => .error e
      | .ok (plainBlock, p2) =>
        let st2 := { st1 with plain := p2 }
        if packSize = unpackSize then .ok (plainBlock, st2)
        else
          match infl plainBlock unpackSize with
          | none => .error .inflateFailure
          | some inflated => .ok (inflated, st2)

/-- FileDataZlib::get_block: return the cached block if present; otherwise
read it, evict while the cache is full, insert, and return the inserted
block (which the source retrieves again by key, an unwrap that cannot fail
on the just-inserted key). -/
def get_block (infl : List Nat → Nat → Option (List Nat))
    (data : List Nat) (st : FileDataZlib) (idx : Nat) :
    Except HpkError (List Nat × FileDataZlib) :=
  match cacheGet st.cache idx with
  | some b => .ok (b, st)
  | none =>
    match read_block infl data st idx with
    | .error e => .error e
    | .ok (block, st1) =>
      match evictLoop idx st1.cache with
      | .error e => .error e
      | .ok c => .ok (block, { st1 with cache := (idx, block) :: c })

/-- The while loop of Read::read for FileDataZlib.  The source first
computes size_left = buf.len() and then evaluates a clamping expression on
size_left whose value is discarded (dead code), so no clamping happens.
Each round fetches the block under the cursor, copies
min(size_left, blockdata.len() - block_offset) bytes (u64 subtraction,
wrapping; the two slice indexings panic when out of range, modelled by
panicSliceOOB) and advances.  A round that copies 0 bytes repeats forever;
exhausting the fuel marks that divergence. -/
def zlibReadAux (infl : List Nat → Nat → Option (List Nat))
    (data : List Nat) (bufLen : Nat) :
    Nat → FileDataZlib → Nat → Nat → Except HpkError (Nat × FileDataZlib)
  | 0, _, _, _ => .error .fuelExhausted
  | fuel+1, st, outPos, sizeLeft =>
    if 0 < sizeLeft ∧ st.cur_offset < st.size then
      match get_block infl data st (st.cur_offset / st.blocksize) with
      | .error e => .error e
      | .ok (blockdata, st1) =>
        let blockOff := st.cur_offset % st.blocksize
        let avail := (blockdata.length + U64 - blockOff) % U64
        let toCopy := if sizeLeft < avail then sizeLeft else avail
        if blockdata.length < blockOff + toCopy then .error .panicSliceOOB
        else if bufLen < outPos + toCopy then .error .panicSliceOOB
        else
          zlibReadAux infl data bufLen fuel
            { st1 with cur_offset := st1.cur_offset + toCopy }
            (outPos + toCopy) (sizeLeft - toCopy)
    else .ok (outPos, st)

/-- Read::read for FileDataZlib, returning the byte count copied into a
buffer of length bufLen. -/
def zlibRead (infl : List Nat → Nat → Option (List Nat))
    (data : List Nat) (st : FileDataZlib) (bufLen fuel : Nat) :
    Except HpkError (Nat × FileDataZlib) :=
  zlibReadAux infl data bufLen fuel st 0 bufLen

/-- Seek for FileDataZlib: purely logical, same bounds as the plain
variant but against the expanded size. -/
def zlibSeek (st : FileDataZlib) : SeekFrom →
    Except HpkError (Nat × FileDataZlib)
  | .start o =>
    if st.size < o then .error .seekOutOfRange
    else .ok (o, { st with cur_offset := o })
  | .fromEnd o =>
    let wanted : Int := (st.size : Int) + o
    if 0 < o then .error .seekOutOfRange
    else if wanted < 0 then .error .seekOutOfRange
    else .ok (wanted.toNat, { st with cur_offset := wanted.toNat })
  | .current o =>
    let wanted : Int := (st.cur_offset : Int) + o
    if wanted < 0 then .error .seekOutOfRange
    else if (st.size : Int) < wanted then .error .seekOutOfRange
    else .ok (wanted.toNat, { st with cur_offset := wanted.toNat })

/-- The two variants of a file data view (FileDataEncoding). -/
inductive FileDataEncoding where
  | plain (p : FileDataPlain)
  | zlib (z : FileDataZlib)
  deriving DecidableEq, Repr

/-- FileData::new: seek the cloned handle to fentry.offset, probe exactly 4
bytes directly from the handle (unclamped by fentry.size), re-seek, then
construct the ZLIB variant when the probe reads the ZLIB magic and the
plain variant otherwise. -/
def fileDataNew (data : List Nat) (fentry : FileTableEntry) :
    Except HpkError FileDataEncoding :=
  match readBytes data fentry.offset 4 with
  | none => .error .ioError
  | some magic =>
    if magic = [0x5A, 0x4C, 0x49, 0x42] then
      match zlibFrom data fentry with
      | .error e => .error e
      | .ok z => .ok (.zlib z)
    else .ok (.plain (plainFrom fentry))

/-- Logical target offset of a seek request, as an exact integer. -/
def seekTarget (size cur : Nat) : SeekFrom → Int
  | .start o => (o : Int)
  | .fromEnd o => (size : Int) + o
  | .current o => (cur : Int) + o

/-- Cache well-formedness: every cached block has the unpacked length the
source computes for its index.  This holds in every reachable state: the
cache starts empty and get_block only inserts blocks returned by
read_block. -/
def CacheWF (st : FileDataZlib) : Prop :=
  ∀ p ∈ st.cache, (p.2 : List Nat).length = unpackLenOf st.size st.blocksize p.1

/-- A per-node property holding for every directory of a tree. -/
inductive AllDirs (p : Directory → Prop) : Directory → Prop where
  | node (fs : List File) (ds : List Directory)
      (ne : Option NameTableEntry) (fe : FileTableEntry) :
      p (.mk fs ds ne fe) → (∀ d ∈ ds, AllDirs p d) →
      AllDirs p (.mk fs ds ne fe)

/-- Tree depth bound: DepthLE d n means the tree d has depth at most n
(a leaf directory has depth 1). -/
inductive DepthLE : Directory → Nat → Prop where
  | node (fs : List File) (ds : List Directory)
      (ne : Option NameTableEntry) (fe : FileTableEntry) (n : Nat) :
      (∀ d ∈ ds, DepthLE d n) → DepthLE (.mk fs ds ne fe) (n + 1)

/-- The file-table row of index i fits inside the archive: i is 1-based and
its 8 bytes lie within the file (this is exactly what a successful
read_file_entry guarantees). -/
def entryIdxOk (len ftbl i : Nat) : Prop :=
  1 ≤ i ∧ ftbl + (i - 1) * 8 + 8 ≤ len

/-- Sum of the serialized sizes of the name entries of a directory's
files. -/
def sumF (fs : List File) : Nat :=
  (fs.map (fun f => f.name_entry.entry_size)).sum

/-- Sum of the serialized sizes of the name entries of a directory's
subdirectories. -/
def sumD (ds : List Directory) : Nat :=
  ((ds.filterMap Directory.name_entry).map (fun ne => ne.entry_size)).sum

/-- Combined per-node invariant established by read_directory_loop: all
referenced child indices resolve inside the file, and the name entries of
the node tile its file-table region exactly. -/
def nodeOk (len ftbl : Nat) (d : Directory) : Prop :=
  (∀ f ∈ d.files, entryIdxOk len ftbl f.name_entry.file_index) ∧
  (∀ sd ∈ d.directories, ∃ ne, sd.name_entry = some ne ∧
      entryIdxOk len ftbl ne.file_index) ∧
  sumF d.files + sumD d.directories = d.file_entry.size

/-- Concrete archive fragment: a single empty directory row (offset 8,
size 0) at file-table offset 0. -/
def data0 : List Nat := [8, 0, 0, 0, 0, 0, 0, 0]

/-- Concrete bytes carrying one name entry (file_index 2, kind file,
name_len 0) at offset 0; bytes 2..10 double as a file-table row (0, 0) at
table offset 2. -/
def dataW : List Nat := [2, 0, 0, 0, 0, 0, 0, 0, 0, 0]

/-- Concrete minimal valid archive: PBLU header (header_size 0x20,
filetbl_offset 0x20) and one file-table row (offset 40, size 0) for the
root directory. -/
def archW : List Nat :=
  [0x42, 0x50, 0x55, 0x4C, 32, 0, 0, 0,
   0, 0, 0, 0, 0, 0, 0, 0, 0, 0, 0, 0, 0, 0, 0, 0, 0, 0, 0, 0,
   32, 0, 0, 0,
   40, 0, 0, 0, 0, 0, 0, 0]

/-- Concrete ZLIB payload: expanded size 32, block size 16 (an exact
multiple), block table [20, 36], one raw 16-byte block; packed size 36. -/
def arch10 : List Nat :=
  [0x5A, 0x4C, 0x49, 0x42, 32, 0, 0, 0, 16, 0, 0, 0,
   20, 0, 0, 0, 36, 0, 0, 0] ++ List.replicate 16 65

/-- An inflate oracle that always fails; the concrete runs below never
reach inflation (their blocks are stored raw). -/
def infl0 : List Nat → Nat → Option (List Nat) := fun _ _ => none

/-- A recursion stub for exercising the name-entry loop in isolation. -/
def rec0 : Nat → List Nat → Except HpkError Directory :=
  fun _ _ => .error .ioError

/-- The ZLIB view over arch10 right after construction. -/
def zst0 : FileDataZlib := ⟨⟨36, 0, 12, 12⟩, 32, 0, 16, []⟩

/-- The view zst0 after seeking to logical offset 17. -/
def zst17 : FileDataZlib := ⟨⟨36, 0, 12, 12⟩, 32, 17, 16, []⟩

/-- The view zst17 after get_block on the (empty) last block. -/
def zst17post : FileDataZlib := ⟨⟨36, 0, 36, 36⟩, 32, 17, 16, [(1, [])]⟩

/-- The view zst0 after successfully reading 5 bytes. -/
def zst0post : FileDataZlib :=
  ⟨⟨36, 0, 36, 36⟩, 32, 5, 16, [(0, List.replicate 16 65)]⟩

/-- The root directory of archW. -/
def rootW : Directory := Directory.mk [] [] none ⟨40, 0⟩

/-- The name entry serialized at offset 0 of dataW. -/
def nentryW : NameTableEntry := ⟨2, .file, 10, []⟩


lemma plainRead_spec (data : List Nat) (st : FileDataPlain) (bufLen : Nat) :
    (plainRead data st bufLen).2.size = st.size ∧
    (plainRead data st bufLen).2.base_offset = st.base_offset ∧
    (plainRead data st bufLen).2.cur_offset
      = st.cur_offset + (plainRead data st bufLen).1.length ∧
    (plainRead data st bufLen).2.file_pos
      = st.file_pos + (plainRead data st bufLen).1.length ∧
    (plainRead data st bufLen).1.length ≤ st.size - st.cur_offset ∧
    (plainRead data st bufLen).1.length ≤ bufLen := by
  unfold plainRead
  simp only [List.length_take, List.length_drop]
  refine ⟨trivial, trivial, ?_, ?_, ?_, ?_⟩ <;> omega

lemma plainReadExactAux_ok (data : List Nat) : ∀ (fuel : Nat)
    (st : FileDataPlain) (n : Nat) (bs : List Nat) (st' : FileDataPlain),
    plainReadExactAux data fuel st n = .ok (bs, st') →
    bs.length = n ∧ n ≤ st.size - st.cur_offset ∧
    st'.size = st.size ∧ st'.base_offset = st.base_offset ∧
    st'.cur_offset = st.cur_offset + n ∧ st'.file_pos = st.file_pos + n := by
  intro fuel
  induction fuel with
  | zero =>
    intro st n bs st' h
    by_cases hn : n = 0
    · subst hn
      simp only [plainReadExactAux, if_true, Except.ok.injEq,
        Prod.mk.injEq] at h
      obtain ⟨h1, h2⟩ := h
      subst h1
      subst h2
      simp
    · simp only [plainReadExactAux, if_neg hn] at h
      cases h
  | succ fuel ih =>
    intro st n bs st' h
    by_cases hn : n = 0
    · subst hn
      simp only [plainReadExactAux, if_true, Except.ok.injEq,
        Prod.mk.injEq] at h
      obtain ⟨h1, h2⟩ := h
      subst h1
      subst h2
      simp
    · rw [plainReadExactAux] at h
      simp only [if_neg hn] at h
      by_cases hg : (plainRead data st n).1.length = 0
      · simp only [if_pos hg] at h
        cases h
      · simp only [if_neg hg] at h
        cases hrec : plainReadExactAux data fuel (plainRead data st n).2
            (n - (plainRead data st n).1.length) with
        | error e => rw [hrec] at h; cases h
        | ok p =>
          obtain ⟨rest, st2⟩ := p
          rw [hrec] at h
          simp only [Except.ok.injEq, Prod.mk.injEq] at h
          obtain ⟨hbs, hst'⟩ := h
          subst hbs
          subst hst'
          have IH := ih (plainRead data st n).2
            (n - (plainRead data st n).1.length) rest st2 hrec
          have S := plainRead_spec data st n
          obtain ⟨s1, s2, s3, s4, s5, s6⟩ := S
          obtain ⟨i1, i2, i3, i4, i5, i6⟩ := IH
          rw [s1, s3] at i2
          refine ⟨?_, ?_, ?_, ?_, ?_, ?_⟩
          · simp only [List.length_append]; omega
          · omega
          · rw [i3, s1]
          · rw [i4, s2]
          · rw [i5, s3]; omega
          · rw [i6, s4]; omega

lemma plainReadExactAux_err (data : List Nat) : ∀ (fuel : Nat)
    (st : FileDataPlain) (n : Nat) (e : HpkError),
    plainReadExactAux data fuel st n = .error e → e = .ioError := by
  intro fuel
  induction fuel with
  | zero =>
    intro st n e h
    by_cases hn : n = 0
    · simp [plainReadExactAux, hn] at h
    · simp only [plainReadExactAux, if_neg hn, Except.error.injEq] at h
      exact h.symm
  | succ fuel ih =>
    intro st n e h
    by_cases hn : n = 0
    · simp [plainReadExactAux, hn] at h
    · rw [plainReadExactAux] at h
      simp only [if_neg hn] at h
      by_cases hg : (plainRead data st n).1.length = 0
      · simp only [if_pos hg, Except.error.injEq] at h
        exact h.symm
      · simp only [if_neg hg] at h
        cases hrec : plainReadExactAux data fuel (plainRead data st n).2
            (n - (plainRead data st n).1.length) with
        | error e2 =>
          rw [hrec] at h
          simp only [Except.error.injEq] at h
          subst h
          exact ih _ _ _ hrec
        | ok p => rw [hrec] at h; cases h

lemma plainReadExactAux_short (data : List Nat) : ∀ (fuel : Nat)
    (st : FileDataPlain) (n : Nat), st.size - st.cur_offset < n →
    plainReadExactAux data fuel st n = .error .ioError := by
  intro fuel
  induction fuel with
  | zero =>
    intro st n hlt
    have hn : n ≠ 0 := by omega
    simp [plainReadExactAux, hn]
  | succ fuel ih =>
    intro st n hlt
    have hn : n ≠ 0 := by omega
    rw [plainReadExactAux]
    simp only [if_neg hn]
    by_cases hg : (plainRead data st n).1.length = 0
    · simp [hg]
    · simp only [if_neg hg]
      have S := plainRead_spec data st n
      obtain ⟨s1, s2, s3, s4, s5, s6⟩ := S
      have hlt2 : (plainRead data st n).2.size -
          (plainRead data st n).2.cur_offset
            < n - (plainRead data st n).1.length := by
        rw [s1, s3]; omega
      rw [ih _ _ hlt2]

lemma plainSeek_start_spec (st : FileDataPlain) (o : Nat) (v : Nat)
    (st' : FileDataPlain) (h : plainSeek st (.start o) = .ok (v, st')) :
    v = o ∧ o ≤ st.size ∧ st'.size = st.size ∧
    st'.base_offset = st.base_offset ∧ st'.cur_offset = o ∧
    st'.file_pos = st.base_offset + o := by
  by_cases hb : st.size < o
  · simp [plainSeek, hb] at h
  · simp only [plainSeek, if_neg hb, Except.ok.injEq, Prod.mk.injEq] at h
    obtain ⟨h1, h2⟩ := h
    subst h1
    subst h2
    exact ⟨rfl, by omega, rfl, rfl, rfl, rfl⟩

lemma plainSeek_err (st : FileDataPlain) (s : SeekFrom) (e : HpkError)
    (h : plainSeek st s = .error e) : e = .seekOutOfRange := by
  cases s with
  | start o =>
    by_cases hb : st.size < o
    · simp only [plainSeek, if_pos hb, Except.error.injEq] at h
      exact h.symm
    · simp [plainSeek, hb] at h
  | fromEnd o =>
    simp only [plainSeek] at h
    split_ifs at h with h1 h2 <;> simp only [Except.error.injEq] at h <;>
      exact h.symm
  | current o =>
    simp only [plainSeek] at h
    split_ifs at h with h1 h2 <;> simp only [Except.error.injEq] at h <;>
      exact h.symm

lemma cacheGet_mem (c : Cache) (k : Nat) (b : List Nat)
    (h : cacheGet c k = some b) : (k, b) ∈ c := by
  unfold cacheGet at h
  cases hf : c.find? (fun p => p.1 == k) with
  | none => rw [hf] at h; cases h
  | some p =>
    rw [hf] at h
    have hpmem := List.mem_of_find?_eq_some hf
    have hpk := List.find?_some hf
    simp only [beq_iff_eq] at hpk
    simp only [Option.map_some', Option.some.injEq] at h
    obtain ⟨p1, p2⟩ := p
    simp only at hpk h
    subst hpk
    subst h
    exact hpmem

lemma cacheGet_none_not_mem (c : Cache) (k : Nat)
    (h : cacheGet c k = none) : ∀ b, (k, b) ∉ c := by
  intro b hmem
  unfold cacheGet at h
  cases hf : c.find? (fun p => p.1 == k) with
  | none =>
    have := List.find?_eq_none.mp hf (k, b) hmem
    simp at this
  | some p => rw [hf] at h; cases h

lemma cacheKeys_length (c : Cache) : (cacheKeys c).length = c.length := by
  unfold cacheKeys
  simp

lemma listMin_ne_nil (l : List Nat) (h : l ≠ []) : ∃ m, listMin l = some m := by
  cases l with
  | nil => exact absurd rfl h
  | cons a as => exact ⟨as.foldl Nat.min a, rfl⟩

lemma listMax_ne_nil (l : List Nat) (h : l ≠ []) : ∃ m, listMax l = some m := by
  cases l with
  | nil => exact absurd rfl h
  | cons a as => exact ⟨as.foldl Nat.max a, rfl⟩

lemma evict_ok_of_two (c : Cache) (idx : Nat) (h2 : 2 ≤ c.length) :
    ∃ c2, evict_another_entry c idx = .ok c2 := by
  unfold evict_another_entry
  have hkeys := cacheKeys_length c
  have hne : cacheKeys c ≠ [] := by
    intro hx
    rw [hx] at hkeys
    simp at hkeys
    omega
  rw [if_neg (by omega : ¬ c.length = 0),
      if_neg (by intro hx; omega : ¬ (c.length = 1 ∧ cacheContains c idx = true))]
  obtain ⟨mn, hmn⟩ := listMin_ne_nil (cacheKeys c) hne
  rw [hmn]
  dsimp only
  by_cases hmi : mn = idx
  · rw [if_pos hmi]
    obtain ⟨mx, hmx⟩ := listMax_ne_nil (cacheKeys c) hne
    rw [hmx]
    dsimp only
    exact ⟨cacheRemove c mx, rfl⟩
  · rw [if_neg hmi]
    exact ⟨cacheRemove c mn, rfl⟩

lemma evict_subset (c : Cache) (idx : Nat) (c2 : Cache)
    (h : evict_another_entry c idx = .ok c2) : ∀ p ∈ c2, p ∈ c := by
  unfold evict_another_entry at h
  by_cases h0 : c.length = 0
  · rw [if_pos h0] at h
    cases h
  · rw [if_neg h0] at h
    by_cases h1 : c.length = 1 ∧ cacheContains c idx = true
    · rw [if_pos h1] at h
      cases h
    · rw [if_neg h1] at h
      cases hmn : listMin (cacheKeys c) with
      | none => rw [hmn] at h; cases h
      | some mn =>
        rw [hmn] at h
        dsimp only at h
        by_cases hmi : mn = idx
        · rw [if_pos hmi] at h
          cases hmx : listMax (cacheKeys c) with
          | none => rw [hmx] at h; cases h
          | some mx =>
            rw [hmx] at h
            dsimp only at h
            simp only [Except.ok.injEq] at h
            subst h
            intro p hp
            exact List.mem_of_mem_filter hp
        · rw [if_neg hmi] at h
          simp only [Except.ok.injEq] at h
          subst h
          intro p hp
          exact List.mem_of_mem_filter hp

lemma evictLoopAux_subset (idx : Nat) : ∀ (fuel : Nat) (c c2 : Cache),
    evictLoopAux idx fuel c = .ok c2 → ∀ p ∈ c2, p ∈ c := by
  intro fuel
  induction fuel with
  | zero =>
    intro c c2 h p hp
    unfold evictLoopAux at h
    by_cases h2 : ZLIB_MAX_CACHE_ENTRIES ≤ c.length
    · rw [if_pos h2] at h
      cases h
    · rw [if_neg h2] at h
      simp only [Except.ok.injEq] at h
      subst h
      exact hp
  | succ fuel ih =>
    intro c c2 h p hp
    rw [evictLoopAux] at h
    by_cases h2 : ZLIB_MAX_CACHE_ENTRIES ≤ c.length
    · rw [if_pos h2] at h
      cases hev : evict_another_entry c idx with
      | error e => rw [hev] at h; cases h
      | ok c3 =>
        rw [hev] at h
        exact evict_subset c idx c3 hev p (ih c3 c2 h p hp)
    · rw [if_neg h2] at h
      simp only [Except.ok.injEq] at h
      subst h
      exact hp

lemma evictLoopAux_len (idx : Nat) : ∀ (fuel : Nat) (c c2 : Cache),
    evictLoopAux idx fuel c = .ok c2 → c2.length ≤ 1 := by
  intro fuel
  induction fuel with
  | zero =>
    intro c c2 h
    unfold evictLoopAux at h
    by_cases h2 : ZLIB_MAX_CACHE_ENTRIES ≤ c.length
    · rw [if_pos h2] at h
      cases h
    · rw [if_neg h2] at h
      simp only [Except.ok.injEq] at h
      subst h
      unfold ZLIB_MAX_CACHE_ENTRIES at h2
      omega
  | succ fuel ih =>
    intro c c2 h
    rw [evictLoopAux] at h
    by_cases h2 : ZLIB_MAX_CACHE_ENTRIES ≤ c.length
    · rw [if_pos h2] at h
      cases hev : evict_another_entry c idx with
      | error e => rw [hev] at h; cases h
      | ok c3 =>
        rw [hev] at h
        exact ih c3 c2 h
    · rw [if_neg h2] at h
      simp only [Except.ok.injEq] at h
      subst h
      unfold ZLIB_MAX_CACHE_ENTRIES at h2
      omega

lemma evictLoopAux_err (idx : Nat) : ∀ (fuel : Nat) (c : Cache) (e : HpkError),
    evictLoopAux idx fuel c = .error e → e = .fuelExhausted := by
  intro fuel
  induction fuel with
  | zero =>
    intro c e h
    unfold evictLoopAux at h
    by_cases h2 : ZLIB_MAX_CACHE_ENTRIES ≤ c.length
    · rw [if_pos h2] at h
      simp only [Except.error.injEq] at h
      exact h.symm
    · rw [if_neg h2] at h
      cases h
  | succ fuel ih =>
    intro c e h
    rw [evictLoopAux] at h
    by_cases h2 : ZLIB_MAX_CACHE_ENTRIES ≤ c.length
    · rw [if_pos h2] at h
      unfold ZLIB_MAX_CACHE_ENTRIES at h2
      obtain ⟨c3, hc3⟩ := evict_ok_of_two c idx h2
      rw [hc3] at h
      exact ih c3 e h
    · rw [if_neg h2] at h
      cases h


lemma rbos_spec (data : List Nat) (st : FileDataZlib) (idx : Nat)
    (trip : Nat × Nat × Nat) (st' : FileDataZlib)
    (h : read_block_offset_and_size data st idx = .ok (trip, st')) :
    st'.size = st.size ∧ st'.blocksize = st.blocksize ∧
    st'.cur_offset = st.cur_offset ∧ st'.cache = st.cache ∧
    idx < numBlocksOf st.size st.blocksize ∧
    trip.2.2 = unpackLenOf st.size st.blocksize idx := by
  unfold read_block_offset_and_size at h
  dsimp only at h
  by_cases hni : numBlocksOf st.size st.blocksize ≤ idx
  · rw [if_pos hni] at h
    cases h
  · rw [if_neg hni] at h
    by_cases hz : numBlocksOf st.size st.blocksize = 0
    · exfalso
      omega
    · rw [if_neg hz] at h
      cases hsk : plainSeek st.plain (.start (ZLIB_BLOCKTBL_OFFSET + idx * 4)) with
      | error e => rw [hsk] at h; cases h
      | ok p1 =>
        obtain ⟨v1, q1⟩ := p1
        rw [hsk] at h
        dsimp only at h
        cases hre : plainReadExact data q1 4 with
        | error e => rw [hre] at h; cases h
        | ok p2 =>
          obtain ⟨buf, q2⟩ := p2
          rw [hre] at h
          dsimp only at h
          by_cases hl : idx = numBlocksOf st.size st.blocksize - 1
          · rw [if_pos hl] at h
            by_cases hov : st.blocksize < (q2.size + U64 - bytesToNat buf) % U64
            · rw [if_pos hov] at h
              cases h
            · rw [if_neg hov] at h
              simp only [Except.ok.injEq, Prod.mk.injEq] at h
              obtain ⟨htrip, hst⟩ := h
              subst htrip
              subst hst
              refine ⟨rfl, rfl, rfl, rfl, by omega, ?_⟩
              unfold unpackLenOf
              rw [if_pos (by omega : idx + 1 = numBlocksOf st.size st.blocksize)]
          · rw [if_neg hl] at h
            cases hre2 : plainReadExact data q2 4 with
            | error e => rw [hre2] at h; cases h
            | ok p3 =>
              obtain ⟨buf2, q3⟩ := p3
              rw [hre2] at h
              dsimp only at h
              by_cases hov : st.blocksize <
                  (bytesToNat buf2 + U64 - bytesToNat buf) % U64
              · rw [if_pos hov] at h
                cases h
              · rw [if_neg hov] at h
                simp only [Except.ok.injEq, Prod.mk.injEq] at h
                obtain ⟨htrip, hst⟩ := h
                subst htrip
                subst hst
                refine ⟨rfl, rfl, rfl, rfl, by omega, ?_⟩
                unfold unpackLenOf
                rw [if_neg (by omega : ¬ idx + 1 = numBlocksOf st.size st.blocksize)]

lemma rbos_err (data : List Nat) (st : FileDataZlib) (idx : Nat) (e : HpkError)
    (hidx : idx < numBlocksOf st.size st.blocksize)
    (h : read_block_offset_and_size data st idx = .error e) :
    e = .seekOutOfRange ∨ e = .ioError ∨ e = .blockOverlarge := by
  unfold read_block_offset_and_size at h
  dsimp only at h
  rw [if_neg (by omega : ¬ numBlocksOf st.size st.blocksize ≤ idx)] at h
  by_cases hz : numBlocksOf st.size st.blocksize = 0
  · omega
  · rw [if_neg hz] at h
    cases hsk : plainSeek st.plain (.start (ZLIB_BLOCKTBL_OFFSET + idx * 4)) with
    | error e2 =>
      rw [hsk] at h
      simp only [Except.error.injEq] at h
      subst h
      exact Or.inl (plainSeek_err _ _ _ hsk)
    | ok p1 =>
      obtain ⟨v1, q1⟩ := p1
      rw [hsk] at h
      dsimp only at h
      cases hre : plainReadExact data q1 4 with
      | error e2 =>
        rw [hre] at h
        simp only [Except.error.injEq] at h
        subst h
        exact Or.inr (Or.inl (plainReadExactAux_err data _ _ _ _ hre))
      | ok p2 =>
        obtain ⟨buf, q2⟩ := p2
        rw [hre] at h
        dsimp only at h
        by_cases hl : idx = numBlocksOf st.size st.blocksize - 1
        · rw [if_pos hl] at h
          by_cases hov : st.blocksize < (q2.size + U64 - bytesToNat buf) % U64
          · rw [if_pos hov] at h
            simp only [Except.error.injEq] at h
            subst h
            exact Or.inr (Or.inr rfl)
          · rw [if_neg hov] at h
            cases h
        · rw [if_neg hl] at h
          cases hre2 : plainReadExact data q2 4 with
          | error e2 =>
            rw [hre2] at h
            simp only [Except.error.injEq] at h
            subst h
            exact Or.inr (Or.inl (plainReadExactAux_err data _ _ _ _ hre2))
          | ok p3 =>
            obtain ⟨buf2, q3⟩ := p3
            rw [hre2] at h
            dsimp only at h
            by_cases hov : st.blocksize <
                (bytesToNat buf2 + U64 - bytesToNat buf) % U64
            · rw [if_pos hov] at h
              simp only [Except.error.injEq] at h
              subst h
              exact Or.inr (Or.inr rfl)
            · rw [if_neg hov] at h
              cases h

lemma read_block_ok (infl : List Nat → Nat → Option (List Nat))
    (data : List Nat) (st : FileDataZlib) (idx : Nat) (b : List Nat)
    (st' : FileDataZlib) (h : read_block infl data st idx = .ok (b, st')) :
    st'.size = st.size ∧ st'.blocksize = st.blocksize ∧
    st'.cur_offset = st.cur_offset ∧ st'.cache = st.cache ∧
    idx < numBlocksOf st.size st.blocksize ∧
    ((∀ i n bs, infl i n = some bs → bs.length = n) →
      b.length = unpackLenOf st.size st.blocksize idx) := by
  unfold read_block at h
  cases hro : read_block_offset_and_size data st idx with
  | error e => rw [hro] at h; cases h
  | ok p =>
    obtain ⟨⟨packStart, packSize, unpackSize⟩, st1⟩ := p
    have R := rbos_spec data st idx _ _ hro
    obtain ⟨r1, r2, r3, r4, r5, r6⟩ := R
    rw [hro] at h
    dsimp only at h
    cases hsk : plainSeek st1.plain (.start packStart) with
    | error e => rw [hsk] at h; cases h
    | ok p1 =>
      obtain ⟨v1, q1⟩ := p1
      rw [hsk] at h
      dsimp only at h
      cases hre : plainReadExact data q1 packSize with
      | error e => rw [hre] at h; cases h
      | ok p2 =>
        obtain ⟨plainBlock, q2⟩ := p2
        rw [hre] at h
        dsimp only at h
        have hlen := (plainReadExactAux_ok data _ _ _ _ _ hre).1
        by_cases heq : packSize = unpackSize
        · rw [if_pos heq] at h
          simp only [Except.ok.injEq, Prod.mk.injEq] at h
          obtain ⟨hb, hst⟩ := h
          subst hb
          subst hst
          refine ⟨r1, r2, r3, r4, r5, ?_⟩
          intro _
          rw [hlen, heq]
          exact r6
        · rw [if_neg heq] at h
          cases hin : infl plainBlock unpackSize with
          | none => rw [hin] at h; cases h
          | some inflated =>
            rw [hin] at h
            dsimp only at h
            simp only [Except.ok.injEq, Prod.mk.injEq] at h
            obtain ⟨hb, hst⟩ := h
            subst hb
            subst hst
            refine ⟨r1, r2, r3, r4, r5, ?_⟩
            intro hinfl
            rw [hinfl _ _ _ hin]
            exact r6

lemma read_block_err (infl : List Nat → Nat → Option (List Nat))
    (data : List Nat) (st : FileDataZlib) (idx : Nat) (e : HpkError)
    (hidx : idx < numBlocksOf st.size st.blocksize)
    (h : read_block infl data st idx = .error e) :
    e = .seekOutOfRange ∨ e = .ioError ∨ e = .blockOverlarge ∨
    e = .inflateFailure := by
  unfold read_block at h
  cases hro : read_block_offset_and_size data st idx with
  | error e2 =>
    rw [hro] at h
    simp only [Except.error.injEq] at h
    subst h
    rcases rbos_err data st idx _ hidx hro with h | h | h
    · exact Or.inl h
    · exact Or.inr (Or.inl h)
    · exact Or.inr (Or.inr (Or.inl h))
  | ok p =>
    obtain ⟨⟨packStart, packSize, unpackSize⟩, st1⟩ := p
    rw [hro] at h
    dsimp only at h
    cases hsk : plainSeek st1.plain (.start packStart) with
    | error e2 =>
      rw [hsk] at h
      simp only [Except.error.injEq] at h
      subst h
      exact Or.inl (plainSeek_err _ _ _ hsk)
    | ok p1 =>
      obtain ⟨v1, q1⟩ := p1
      rw [hsk] at h
      dsimp only at h
      cases hre : plainReadExact data q1 packSize with
      | error e2 =>
        rw [hre] at h
        simp only [Except.error.injEq] at h
        subst h
        exact Or.inr (Or.inl (plainReadExactAux_err data _ _ _ _ hre))
      | ok p2 =>
        obtain ⟨plainBlock, q2⟩ := p2
        rw [hre] at h
        dsimp only at h
        by_cases heq : packSize = unpackSize
        · rw [if_pos heq] at h
          cases h
        · rw [if_neg heq] at h
          cases hin : infl plainBlock unpackSize with
          | none =>
            rw [hin] at h
            simp only [Except.error.injEq] at h
            subst h
            exact Or.inr (Or.inr (Or.inr rfl))
          | some inflated =>
            rw [hin] at h
            dsimp only at h
            cases h

lemma get_block_ok (infl : List Nat → Nat → Option (List Nat))
    (data : List Nat) (st : FileDataZlib) (idx : Nat) (b : List Nat)
    (st' : FileDataZlib) (h : get_block infl data st idx = .ok (b, st')) :
    st'.size = st.size ∧ st'.blocksize = st.blocksize ∧
    st'.cur_offset = st.cur_offset ∧
    ((∀ i n bs, infl i n = some bs → bs.length = n) → CacheWF st →
      CacheWF st' ∧ b.length = unpackLenOf st.size st.blocksize idx) ∧
    (st.cache.length ≤ 2 → st'.cache.length ≤ 2) ∧
    cacheGet st'.cache idx = some b := by
  unfold get_block at h
  cases hcg : cacheGet st.cache idx with
  | some b0 =>
    rw [hcg] at h
    dsimp only at h
    simp only [Except.ok.injEq, Prod.mk.injEq] at h
    obtain ⟨hb, hst⟩ := h
    subst hb
    subst hst
    refine ⟨rfl, rfl, rfl, ?_, fun hl => hl, hcg⟩
    intro _ hwf
    exact ⟨hwf, hwf _ (cacheGet_mem _ _ _ hcg)⟩
  | none =>
    rw [hcg] at h
    dsimp only at h
    cases hrb : read_block infl data st idx with
    | error e => rw [hrb] at h; cases h
    | ok p =>
      obtain ⟨block, st1⟩ := p
      rw [hrb] at h
      dsimp only at h
      have R := read_block_ok infl data st idx block st1 hrb
      obtain ⟨r1, r2, r3, r4, r5, r6⟩ := R
      cases hev : evictLoop idx st1.cache with
      | error e => rw [hev] at h; cases h
      | ok c =>
        rw [hev] at h
        dsimp only at h
        simp only [Except.ok.injEq, Prod.mk.injEq] at h
        obtain ⟨hb, hst⟩ := h
        subst hb
        subst hst
        have hsub := evictLoopAux_subset idx st1.cache.length st1.cache c hev
        have hlen := evictLoopAux_len idx st1.cache.length st1.cache c hev
        refine ⟨r1, r2, r3, ?_, ?_, ?_⟩
        · intro hinfl hwf
          constructor
          · intro p hp
            simp only at hp
            cases hp with
            | head =>
              simp only [r1, r2]
              exact r6 hinfl
            | tail _ hp2 =>
              have hmem : p ∈ st.cache := by
                rw [← r4]
                exact hsub p hp2
              simp only [r1, r2]
              exact hwf p hmem
          · exact r6 hinfl
        · intro _
          simp only [List.length_cons]
          omega
        · simp [cacheGet]

lemma get_block_err (infl : List Nat → Nat → Option (List Nat))
    (data : List Nat) (st : FileDataZlib) (idx : Nat) (e : HpkError)
    (hidx : idx < numBlocksOf st.size st.blocksize)
    (h : get_block infl data st idx = .error e) :
    e = .seekOutOfRange ∨ e = .ioError ∨ e = .blockOverlarge ∨
    e = .inflateFailure ∨ e = .fuelExhausted := by
  unfold get_block at h
  cases hcg : cacheGet st.cache idx with
  | some b0 => rw [hcg] at h; cases h
  | none =>
    rw [hcg] at h
    dsimp only at h
    cases hrb : read_block infl data st idx with
    | error e2 =>
      rw [hrb] at h
      simp only [Except.error.injEq] at h
      subst h
      rcases read_block_err infl data st idx _ hidx hrb with h | h | h | h
      · exact Or.inl h
      · exact Or.inr (Or.inl h)
      · exact Or.inr (Or.inr (Or.inl h))
      · exact Or.inr (Or.inr (Or.inr (Or.inl h)))
    | ok p =>
      obtain ⟨block, st1⟩ := p
      rw [hrb] at h
      dsimp only at h
      cases hev : evictLoop idx st1.cache with
      | error e2 =>
        rw [hev] at h
        simp only [Except.error.injEq] at h
        subst h
        exact Or.inr (Or.inr (Or.inr (Or.inr
          (evictLoopAux_err idx st1.cache.length st1.cache _ hev))))
      | ok c => rw [hev] at h; dsimp only at h; cases h

lemma div_lt_numBlocks (S B cur : Nat) (hb : 0 < B) (hcur : cur < S) :
    cur / B < numBlocksOf S B := by
  unfold numBlocksOf
  have h1 : cur / B ≤ S / B := Nat.div_le_div_right (Nat.le_of_lt hcur)
  by_cases hsr : 0 < S % B
  · rw [if_pos hsr]
    omega
  · rw [if_neg hsr]
    have hdmS : B * (S / B) + S % B = S := Nat.div_add_mod S B
    have hdm : B * (cur / B) + cur % B = cur := Nat.div_add_mod cur B
    by_contra hcon
    push_neg at hcon
    have hm : B * (S / B) ≤ B * (cur / B) := Nat.mul_le_mul_left _ hcon
    omega

lemma cacheWF_cur (st : FileDataZlib) (x : Nat) (h : CacheWF st) :
    CacheWF { st with cur_offset := x } := h

lemma zlibReadAux_bound (infl : List Nat → Nat → Option (List Nat))
    (data : List Nat) (bufLen : Nat)
    (hinfl : ∀ i n bs, infl i n = some bs → bs.length = n) :
    ∀ (fuel : Nat) (st : FileDataZlib) (outPos sizeLeft n : Nat)
      (st' : FileDataZlib),
    0 < st.blocksize → st.blocksize ≤ ZLIB_MAX_BLOCKSIZE → CacheWF st →
    zlibReadAux infl data bufLen fuel st outPos sizeLeft = .ok (n, st') →
    n ≤ outPos + min sizeLeft (st.size - st.cur_offset) := by
  intro fuel
  induction fuel with
  | zero =>
    intro st outPos sizeLeft n st' _ _ _ h
    rw [zlibReadAux] at h
    cases h
  | succ fuel ih =>
    intro st outPos sizeLeft n st' hb hb2 hwf h
    rw [zlibReadAux] at h
    by_cases hc : 0 < sizeLeft ∧ st.cur_offset < st.size
    · rw [if_pos hc] at h
      cases hgb : get_block infl data st (st.cur_offset / st.blocksize) with
      | error e => rw [hgb] at h; cases h
      | ok p =>
        obtain ⟨blockdata, st1⟩ := p
        rw [hgb] at h
        dsimp only at h
        have G := get_block_ok infl data st _ blockdata st1 hgb
        obtain ⟨g1, g2, g3, g4, _, _⟩ := G
        obtain ⟨gwf, glen⟩ := g4 hinfl hwf
        unfold ZLIB_MAX_BLOCKSIZE at hb2
        have hofflt : st.cur_offset % st.blocksize < st.blocksize :=
          Nat.mod_lt _ hb
        have hLB : blockdata.length ≤ st.blocksize := by
          rw [glen]
          unfold unpackLenOf
          split_ifs
          · exact Nat.le_of_lt (Nat.mod_lt _ hb)
          · exact Nat.le_refl _
        by_cases hwrap : blockdata.length < st.cur_offset % st.blocksize
        · have htc1 : 1 ≤ (if sizeLeft < (blockdata.length + U64 -
              st.cur_offset % st.blocksize) % U64 then sizeLeft
              else (blockdata.length + U64 -
                st.cur_offset % st.blocksize) % U64) := by
            have havail : (blockdata.length + U64 -
                st.cur_offset % st.blocksize) % U64
                = blockdata.length + U64 - st.cur_offset % st.blocksize := by
              apply Nat.mod_eq_of_lt
              unfold U64
              omega
            rw [havail]
            split_ifs
            · omega
            · unfold U64
              omega
          rw [if_pos (by omega)] at h
          cases h
        · push_neg at hwrap
          have havail : (blockdata.length + U64 -
              st.cur_offset % st.blocksize) % U64
              = blockdata.length - st.cur_offset % st.blocksize := by
            rw [show blockdata.length + U64 - st.cur_offset % st.blocksize
                = U64 + (blockdata.length - st.cur_offset % st.blocksize) by
              omega]
            rw [Nat.add_mod_left]
            apply Nat.mod_eq_of_lt
            unfold U64
            omega
          rw [havail] at h
          have hkey : st.cur_offset +
              (blockdata.length - st.cur_offset % st.blocksize)
              ≤ st.size := by
            have hdm : st.blocksize * (st.cur_offset / st.blocksize)
                + st.cur_offset % st.blocksize = st.cur_offset :=
              Nat.div_add_mod _ _
            have hdmS : st.blocksize * (st.size / st.blocksize)
                + st.size % st.blocksize = st.size := Nat.div_add_mod _ _
            have hsrlt : st.size % st.blocksize < st.blocksize :=
              Nat.mod_lt _ hb
            unfold unpackLenOf at glen
            by_cases hlast : st.cur_offset / st.blocksize + 1
                = numBlocksOf st.size st.blocksize
            · rw [if_pos hlast] at glen
              unfold numBlocksOf at hlast
              by_cases hsr : 0 < st.size % st.blocksize
              · rw [if_pos hsr] at hlast
                have hq : st.cur_offset / st.blocksize
                    = st.size / st.blocksize := by omega
                rw [hq] at hdm
                omega
              · rw [if_neg hsr] at hlast
                omega
            · rw [if_neg hlast] at glen
              have hidxlt : st.cur_offset / st.blocksize
                  < numBlocksOf st.size st.blocksize :=
                div_lt_numBlocks _ _ _ hb hc.2
              unfold numBlocksOf at hidxlt hlast
              have hq1 : st.cur_offset / st.blocksize + 1
                  ≤ st.size / st.blocksize := by
                by_cases hsr : 0 < st.size % st.blocksize
                · rw [if_pos hsr] at hidxlt hlast
                  omega
                · rw [if_neg hsr] at hidxlt hlast
                  omega
              have hmul : st.blocksize *
                  (st.cur_offset / st.blocksize + 1)
                  ≤ st.blocksize * (st.size / st.blocksize) :=
                Nat.mul_le_mul_left _ hq1
              have hmul2 : st.blocksize *
                  (st.cur_offset / st.blocksize + 1)
                  = st.blocksize * (st.cur_offset / st.blocksize)
                    + st.blocksize := by ring
              omega
          have htc : (if sizeLeft < blockdata.length -
              st.cur_offset % st.blocksize then sizeLeft
             else blockdata.length - st.cur_offset % st.blocksize)
              ≤ blockdata.length - st.cur_offset % st.blocksize := by
            split_ifs <;> omega
          rw [if_neg (by omega : ¬ blockdata.length <
              st.cur_offset % st.blocksize +
              (if sizeLeft < blockdata.length -
                st.cur_offset % st.blocksize then sizeLeft
               else blockdata.length -
                st.cur_offset % st.blocksize))] at h
          by_cases hg2 : bufLen < outPos +
              (if sizeLeft < blockdata.length -
                st.cur_offset % st.blocksize then sizeLeft
               else blockdata.length - st.cur_offset % st.blocksize)
          · rw [if_pos hg2] at h
            cases h
          · rw [if_neg hg2] at h
            have hn := ih { st1 with cur_offset := st1.cur_offset +
                (if sizeLeft < blockdata.length -
                  st.cur_offset % st.blocksize then sizeLeft
                 else blockdata.length - st.cur_offset % st.blocksize) }
              (outPos + (if sizeLeft < blockdata.length -
                  st.cur_offset % st.blocksize then sizeLeft
                 else blockdata.length - st.cur_offset % st.blocksize))
              (sizeLeft - (if sizeLeft < blockdata.length -
                  st.cur_offset % st.blocksize then sizeLeft
                 else blockdata.length - st.cur_offset % st.blocksize))
              n st' (by simpa [g2] using hb)
              (by simpa [g2] using (by unfold ZLIB_MAX_BLOCKSIZE; omega :
                st.blocksize ≤ ZLIB_MAX_BLOCKSIZE))
              (cacheWF_cur st1 _ gwf) h
            dsimp only at hn
            rw [g1, g3] at hn
            have htcsl : (if sizeLeft < blockdata.length -
                st.cur_offset % st.blocksize then sizeLeft
               else blockdata.length - st.cur_offset % st.blocksize)
                ≤ sizeLeft := by
              split_ifs <;> omega
            have htckey : (if sizeLeft < blockdata.length -
                st.cur_offset % st.blocksize then sizeLeft
               else blockdata.length - st.cur_offset % st.blocksize)
                ≤ blockdata.length - st.cur_offset % st.blocksize := by
              split_ifs <;> omega
            omega
    · rw [if_neg hc] at h
      simp only [Except.ok.injEq, Prod.mk.injEq] at h
      obtain ⟨hn, _⟩ := h
      subst hn
      omega

lemma zlibReadAux_no_named_panic (infl : List Nat → Nat → Option (List Nat))
    (data : List Nat) (bufLen : Nat) :
    ∀ (fuel : Nat) (st : FileDataZlib) (outPos sizeLeft : Nat) (e : HpkError),
    0 < st.blocksize →
    zlibReadAux infl data bufLen fuel st outPos sizeLeft = .error e →
    e ≠ .panicIdxOutOfRange ∧ e ≠ .panicEvictEmpty ∧ e ≠ .panicEvictOnly := by
  intro fuel
  induction fuel with
  | zero =>
    intro st outPos sizeLeft e _ h
    rw [zlibReadAux] at h
    simp only [Except.error.injEq] at h
    subst h
    refine ⟨?_, ?_, ?_⟩ <;> intro hx <;> cases hx
  | succ fuel ih =>
    intro st outPos sizeLeft e hb h
    rw [zlibReadAux] at h
    by_cases hc : 0 < sizeLeft ∧ st.cur_offset < st.size
    · rw [if_pos hc] at h
      cases hgb : get_block infl data st (st.cur_offset / st.blocksize) with
      | error e2 =>
        rw [hgb] at h
        simp only [Except.error.injEq] at h
        subst h
        have hidx : st.cur_offset / st.blocksize
            < numBlocksOf st.size st.blocksize :=
          div_lt_numBlocks _ _ _ hb hc.2
        rcases get_block_err infl data st _ _ hidx hgb with
          h | h | h | h | h <;> subst h <;>
          refine ⟨?_, ?_, ?_⟩ <;> intro hx <;> cases hx
      | ok p =>
        obtain ⟨blockdata, st1⟩ := p
        rw [hgb] at h
        dsimp only at h
        have G := get_block_ok infl data st _ blockdata st1 hgb
        obtain ⟨_, g2, _, _, _, _⟩ := G
        by_cases hgu1 : blockdata.length < st.cur_offset % st.blocksize +
            (if sizeLeft < (blockdata.length + U64 -
                st.cur_offset % st.blocksize) % U64 then sizeLeft
             else (blockdata.length + U64 -
                st.cur_offset % st.blocksize) % U64)
        · rw [if_pos hgu1] at h
          simp only [Except.error.injEq] at h
          subst h
          refine ⟨?_, ?_, ?_⟩ <;> intro hx <;> cases hx
        · rw [if_neg hgu1] at h
          by_cases hgu2 : bufLen < outPos +
              (if sizeLeft < (blockdata.length + U64 -
                  st.cur_offset % st.blocksize) % U64 then sizeLeft
               else (blockdata.length + U64 -
                  st.cur_offset % st.blocksize) % U64)
          · rw [if_pos hgu2] at h
            simp only [Except.error.injEq] at h
            subst h
            refine ⟨?_, ?_, ?_⟩ <;> intro hx <;> cases hx
          · rw [if_neg hgu2] at h
            exact ih _ _ _ _ (by simpa [g2] using hb) h
    · rw [if_neg hc] at h
      cases h

lemma zlibRead_bound (infl : List Nat → Nat → Option (List Nat))
    (data : List Nat) (st : FileDataZlib) (bufLen fuel n : Nat)
    (st' : FileDataZlib)
    (hinfl : ∀ i n2 bs, infl i n2 = some bs → bs.length = n2)
    (hb : 0 < st.blocksize) (hb2 : st.blocksize ≤ ZLIB_MAX_BLOCKSIZE)
    (hwf : CacheWF st)
    (h : zlibRead infl data st bufLen fuel = .ok (n, st')) :
    n ≤ min bufLen (st.size - st.cur_offset) := by
  have := zlibReadAux_bound infl data bufLen hinfl fuel st 0 bufLen n st'
    hb hb2 hwf h
  omega

lemma read_file_entry_ok (data : List Nat) (ftbl index : Nat)
    (fe : FileTableEntry) (h : read_file_entry data ftbl index = .ok fe) :
    entryIdxOk data.length ftbl index := by
  unfold read_file_entry at h
  by_cases h0 : index = 0
  · rw [if_pos h0] at h
    cases h
  · rw [if_neg h0] at h
    cases hrb : readBytes data (ftbl + (index - 1) * 8) 8 with
    | none => rw [hrb] at h; cases h
    | some buf =>
      unfold readBytes at hrb
      by_cases hle : ftbl + (index - 1) * 8 + 8 ≤ data.length
      · exact ⟨by omega, hle⟩
      · rw [if_neg hle] at hrb
        cases hrb

lemma sumF_nil : sumF [] = 0 := rfl

lemma sumD_nil : sumD [] = 0 := rfl

lemma sumF_cons (f : File) (fs : List File) :
    sumF (f :: fs) = f.name_entry.entry_size + sumF fs := by
  simp [sumF]

lemma sumD_cons_some (fs1 : List File) (ds1 : List Directory)
    (ne : NameTableEntry) (fe1 : FileTableEntry) (ds : List Directory) :
    sumD (Directory.mk fs1 ds1 (some ne) fe1 :: ds)
      = ne.entry_size + sumD ds := by
  simp [sumD, Directory.name_entry, List.filterMap_cons]

lemma allDirs_nodeOk_retag (len ftbl : Nat) (fs : List File)
    (ds : List Directory) (ne ne2 : Option NameTableEntry)
    (fe : FileTableEntry)
    (h : AllDirs (nodeOk len ftbl) (.mk fs ds ne fe)) :
    AllDirs (nodeOk len ftbl) (.mk fs ds ne2 fe) := by
  cases h with
  | node _ _ _ _ hp hds => exact .node fs ds ne2 fe hp hds

lemma depthLE_retag (fs : List File) (ds : List Directory)
    (ne ne2 : Option NameTableEntry) (fe : FileTableEntry) (n : Nat)
    (h : DepthLE (.mk fs ds ne fe) n) : DepthLE (.mk fs ds ne2 fe) n := by
  cases h with
  | node _ _ _ _ _ hds => exact .node fs ds ne2 fe _ hds

lemma rdlEntries_inv (data : List Nat) (ftbl : Nat)
    (recurse : Nat → List Nat → Except HpkError Directory)
    (K : Nat) (stack0 : List Nat)
    (Hrec : ∀ i d, recurse i stack0 = .ok d →
      AllDirs (nodeOk data.length ftbl) d ∧ DepthLE d K) :
    ∀ (efuel maxOff cur : Nat) (fs : List File) (ds : List Directory),
    rdlEntries data ftbl recurse efuel stack0 maxOff cur = .ok (fs, ds) →
    (∀ f ∈ fs, entryIdxOk data.length ftbl f.name_entry.file_index) ∧
    (∀ sd ∈ ds, ∃ ne, sd.name_entry = some ne ∧
        entryIdxOk data.length ftbl ne.file_index) ∧
    sumF fs + sumD ds = maxOff - cur ∧
    (∀ sd ∈ ds, AllDirs (nodeOk data.length ftbl) sd ∧ DepthLE sd K) := by
  intro efuel
  induction efuel with
  | zero =>
    intro maxOff cur fs ds h
    rw [rdlEntries] at h
    cases h
  | succ efuel ih =>
    intro maxOff cur fs ds h
    rw [rdlEntries] at h
    by_cases hcm : cur < maxOff
    · rw [if_pos hcm] at h
      cases hne : read_name_entry data cur with
      | error e => rw [hne] at h; cases h
      | ok nentry =>
        rw [hne] at h
        dsimp only at h
        by_cases hspan : maxOff < cur + nentry.entry_size
        · rw [if_pos hspan] at h
          cases h
        · rw [if_neg hspan] at h
          cases hfe : read_file_entry data ftbl nentry.file_index with
          | error e => rw [hfe] at h; cases h
          | ok fentry =>
            rw [hfe] at h
            dsimp only at h
            have hidx := read_file_entry_ok data ftbl _ _ hfe
            cases het : nentry.entry_type with
            | file =>
              rw [het] at h
              dsimp only at h
              cases hrec : rdlEntries data ftbl recurse efuel stack0 maxOff
                  (cur + nentry.entry_size) with
              | error e => rw [hrec] at h; cases h
              | ok p =>
                obtain ⟨fs0, ds0⟩ := p
                rw [hrec] at h
                dsimp only at h
                simp only [Except.ok.injEq, Prod.mk.injEq] at h
                obtain ⟨hfs, hds⟩ := h
                subst hfs
                subst hds
                obtain ⟨i1, i2, i3, i4⟩ := ih maxOff (cur + nentry.entry_size)
                  fs0 ds0 hrec
                refine ⟨?_, i2, ?_, i4⟩
                · intro f hf
                  cases hf with
                  | head => exact hidx
                  | tail _ hf2 => exact i1 f hf2
                · rw [sumF_cons]
                  dsimp only
                  omega
            | directory =>
              rw [het] at h
              dsimp only at h
              cases hrd : recurse nentry.file_index stack0 with
              | error e => rw [hrd] at h; cases h
              | ok undir =>
                rw [hrd] at h
                dsimp only at h
                cases hrec : rdlEntries data ftbl recurse efuel stack0 maxOff
                    (cur + nentry.entry_size) with
                | error e => rw [hrec] at h; cases h
                | ok p =>
                  obtain ⟨fs0, ds0⟩ := p
                  rw [hrec] at h
                  dsimp only at h
                  simp only [Except.ok.injEq, Prod.mk.injEq] at h
                  obtain ⟨hfs, hds⟩ := h
                  subst hfs
                  subst hds
                  obtain ⟨i1, i2, i3, i4⟩ := ih maxOff
                    (cur + nentry.entry_size) fs0 ds0 hrec
                  obtain ⟨hu1, hu2⟩ := Hrec _ _ hrd
                  obtain ⟨ufs, uds, une, ufe⟩ := undir
                  refine ⟨i1, ?_, ?_, ?_⟩
                  · intro sd hsd
                    cases hsd with
                    | head => exact ⟨nentry, rfl, hidx⟩
                    | tail _ hsd2 => exact i2 sd hsd2
                  · rw [sumD_cons_some]
                    omega
                  · intro sd hsd
                    cases hsd with
                    | head =>
                      exact ⟨allDirs_nodeOk_retag _ _ _ _ _ _ _ hu1,
                             depthLE_retag _ _ _ _ _ _ hu2⟩
                    | tail _ hsd2 => exact i4 sd hsd2
    · rw [if_neg hcm] at h
      simp only [Except.ok.injEq, Prod.mk.injEq] at h
      obtain ⟨hfs, hds⟩ := h
      subst hfs
      subst hds
      refine ⟨?_, ?_, ?_, ?_⟩
      · intro f hf
        cases hf
      · intro sd hsd
        cases hsd
      · rw [sumF_nil, sumD_nil]
        omega
      · intro sd hsd
        cases hsd

lemma rdl_master (data : List Nat) (ftbl : Nat) : ∀ (fuel index : Nat)
    (stack : List Nat) (d : Directory),
    rdl data ftbl fuel index stack = .ok d →
    AllDirs (nodeOk data.length ftbl) d ∧ DepthLE d (129 - stack.length) := by
  intro fuel
  induction fuel with
  | zero =>
    intro index stack d h
    rw [rdl] at h
    cases h
  | succ fuel ih =>
    intro index stack d h
    rw [rdl] at h
    cases hfe : read_file_entry data ftbl index with
    | error e => rw [hfe] at h; cases h
    | ok dentry =>
      rw [hfe] at h
      dsimp only at h
      by_cases hd : 128 < stack.length
      · rw [if_pos hd] at h
        cases h
      · rw [if_neg hd] at h
        by_cases hcy : stack.contains index = true
        · rw [if_pos hcy] at h
          cases h
        · rw [if_neg hcy] at h
          cases hen : rdlEntries data ftbl (rdl data ftbl fuel)
              (dentry.size + 1) (stack ++ [index])
              (dentry.offset + dentry.size) dentry.offset with
          | error e => rw [hen] at h; cases h
          | ok p =>
            obtain ⟨files, dirs⟩ := p
            rw [hen] at h
            dsimp only at h
            simp only [Except.ok.injEq] at h
            subst h
            have hlen : (stack ++ [index]).length = stack.length + 1 := by
              simp
            have Hrec : ∀ i d2,
                rdl data ftbl fuel i (stack ++ [index]) = .ok d2 →
                AllDirs (nodeOk data.length ftbl) d2 ∧
                DepthLE d2 (129 - (stack.length + 1)) := by
              intro i d2 hh
              have hx := ih i (stack ++ [index]) d2 hh
              rwa [hlen] at hx
            obtain ⟨e1, e2, e3, e4⟩ := rdlEntries_inv data ftbl
              (rdl data ftbl fuel) (129 - (stack.length + 1))
              (stack ++ [index]) Hrec (dentry.size + 1)
              (dentry.offset + dentry.size) dentry.offset files dirs hen
            constructor
            · refine AllDirs.node files dirs none dentry ⟨e1, ?_, ?_⟩ ?_
              · intro sd hsd
                exact e2 sd hsd
              · show sumF files + sumD dirs = dentry.size
                omega
              · intro sd hsd
                exact (e4 sd hsd).1
            · rw [show 129 - stack.length = (129 - (stack.length + 1)) + 1
                from by omega]
              refine DepthLE.node files dirs none dentry _ ?_
              intro sd hsd
              exact (e4 sd hsd).2

lemma read_header_ok (data : List Nat) (ftbl : Nat)
    (h : read_header data = .ok ftbl) :
    32 ≤ data.length ∧ ftbl = u32At data 28 := by
  unfold read_header at h
  cases hrb : readBytes data 0 32 with
  | none => rw [hrb] at h; cases h
  | some buf =>
    rw [hrb] at h
    dsimp only at h
    have hlen : 32 ≤ data.length := by
      unfold readBytes at hrb
      by_cases hle : 0 + 32 ≤ data.length
      · omega
      · rw [if_neg hle] at hrb
        cases hrb
    have hbuf : buf = data.take 32 := by
      unfold readBytes at hrb
      rw [if_pos (by omega : 0 + 32 ≤ data.length)] at hrb
      simp only [Option.some.injEq] at hrb
      rw [← hrb]
      simp
    refine ⟨hlen, ?_⟩
    by_cases h1 : bytesToNat (buf.take 4) ≠ 0x4c555042
    · rw [if_pos h1] at h
      cases h
    · rw [if_neg h1] at h
      by_cases h2 : bytesToNat ((buf.drop 4).take 4) < 0x20
      · rw [if_pos h2] at h
        cases h
      · rw [if_neg h2] at h
        by_cases h3 : 0x24 < bytesToNat ((buf.drop 4).take 4)
        · rw [if_pos h3] at h
          cases h
        · rw [if_neg h3] at h
          by_cases h4 : bytesToNat (buf.drop 28)
              < bytesToNat ((buf.drop 4).take 4)
          · rw [if_pos h4] at h
            cases h
          · rw [if_neg h4] at h
            simp only [Except.ok.injEq] at h
            subst h
            rw [hbuf, List.drop_take]
            norm_num [u32At]

lemma allDirs_mono (p q : Directory → Prop) (hpq : ∀ x, p x → q x) :
    ∀ d, AllDirs p d → AllDirs q d := by
  intro d h
  induction h with
  | node fs ds ne fe hp hds ih => exact .node fs ds ne fe (hpq _ hp) ih

lemma entryIdxOk_div (len ftbl i : Nat) (h : entryIdxOk len ftbl i) :
    1 ≤ i ∧ i ≤ (len - ftbl) / 8 := by
  obtain ⟨h1, h8⟩ := h
  refine ⟨h1, ?_⟩
  rw [Nat.le_div_iff_mul_le (by norm_num : 0 < 8)]
  omega

set_option maxRecDepth 10000

/-- Claim C1 (code bug): the spec says the last block of a ZLIB payload
whose expanded size is an exact nonzero multiple of the block size unpacks
to exactly B bytes; the source computes its unpacked length as
expanded_size % blocksize = 0 instead.  On the concrete payload arch10
(expanded 32, block size 16, both blocks stored raw) decoding the last
block (index 1) yields 0 bytes, and reading the view to the end never
terminates (the model's fuel runs out with no progress). -/
theorem c1_last_block_unpacks_to_zero :
    (match zlibFrom arch10 ⟨0, 36⟩ with
     | .error e => Except.error e
     | .ok z =>
       match read_block infl0 arch10 z 1 with
       | .error e => Except.error e
       | .ok (b, _) => Except.ok b.length) = Except.ok 0 ∧
    (match zlibFrom arch10 ⟨0, 36⟩ with
     | .error e => Except.error e
     | .ok z => zlibRead infl0 arch10 z 32 40)
      = Except.error .fuelExhausted :=
  ⟨rfl, rfl⟩

/-- Counterexample to claim C2 as stated: with the resolution path already
holding exactly 128 indices, read_directory_loop does not fail (the source
checks stack.len() > 128, not ≥ 128): on data0 it resolves the empty
directory successfully. -/
theorem c2_cex_len128_succeeds :
    rdl data0 0 5 1 (List.replicate 128 7)
      = .ok (Directory.mk [] [] none ⟨8, 0⟩) := rfl

/-- Claim C2 (amended): directory resolution fails whenever the current
path length is strictly greater than 128 before pushing (with
DepthExceeded precisely when the directory's own file-table row reads
successfully and fuel is available), and consequently every accepted tree
has depth at most 129 (129 - stack.length in general, 129 for open's empty
initial path). -/
theorem c2_amended_depth_guard (data : List Nat) (ftbl fuel index : Nat)
    (stack : List Nat) :
    (128 < stack.length → ∀ d, rdl data ftbl fuel index stack ≠ .ok d) ∧
    (128 < stack.length → 0 < fuel →
      ∀ fe, read_file_entry data ftbl index = .ok fe →
      rdl data ftbl fuel index stack = .error .depthExceeded) ∧
    (∀ d, rdl data ftbl fuel index stack = .ok d →
      DepthLE d (129 - stack.length)) ∧
    (∀ d, openArchive data = .ok d → DepthLE d 129) := by
  refine ⟨?_, ?_, ?_, ?_⟩
  · intro hlen d hok
    cases fuel with
    | zero =>
      rw [rdl] at hok
      cases hok
    | succ fuel =>
      rw [rdl] at hok
      cases hfe : read_file_entry data ftbl index with
      | error e => rw [hfe] at hok; cases hok
      | ok dentry =>
        rw [hfe] at hok
        dsimp only at hok
        rw [if_pos hlen] at hok
        cases hok
  · intro hlen hf fe hfe
    obtain ⟨fuel2, rfl⟩ : ∃ k, fuel = k + 1 := ⟨fuel - 1, by omega⟩
    rw [rdl, hfe]
    dsimp only
    rw [if_pos hlen]
  · intro d h
    exact (rdl_master data ftbl fuel index stack d h).2
  · intro d h
    unfold openArchive at h
    cases hrh : read_header data with
    | error e => rw [hrh] at h; cases h
    | ok ftbl2 =>
      rw [hrh] at h
      dsimp only at h
      have := (rdl_master data ftbl2 200 1 [] d h).2
      simpa using this

/-- Facts used by the witness of claim C2, obtained by applying the amended
theorem at concrete inputs: a path of 129 entries is rejected (and with the
file entry readable, rejected with DepthExceeded), while the depth bounds
hold for the concrete trees produced at path length 128 and by open. -/
theorem c2_amended_depth_guard_witness :
    (rdl data0 0 5 1 (List.replicate 129 7)
      ≠ .ok (Directory.mk [] [] none ⟨8, 0⟩)) ∧
    rdl data0 0 5 1 (List.replicate 129 7) = .error .depthExceeded ∧
    DepthLE (Directory.mk [] [] none ⟨8, 0⟩) (129 - 128) ∧
    DepthLE rootW 129 :=
  ⟨(c2_amended_depth_guard data0 0 5 1 (List.replicate 129 7)).1
      (by decide) _,
   (c2_amended_depth_guard data0 0 5 1 (List.replicate 129 7)).2.1
      (by decide) (by decide) ⟨8, 0⟩ rfl,
   by
     have := (c2_amended_depth_guard data0 0 5 1
        (List.replicate 128 7)).2.2.1 (Directory.mk [] [] none ⟨8, 0⟩) rfl
     simpa using this,
   (c2_amended_depth_guard archW 0 0 0 []).2.2.2 rootW rfl⟩

/-- Claim C3: for every archive accepted by open, every child (file or
subdirectory) referenced anywhere in the tree has a 1-based file index
whose 8-byte file-table row lies inside the archive; with the file table
extending from filetbl_offset (the u32 at header offset 0x1c) to the end
of the file, the index is at most (file length - filetbl_offset) / 8. -/
theorem c3_child_indices_in_table (data : List Nat) (d : Directory)
    (h : openArchive data = .ok d) :
    AllDirs (fun n =>
      (∀ f ∈ n.files, 1 ≤ f.name_entry.file_index ∧
        f.name_entry.file_index ≤ (data.length - u32At data 28) / 8) ∧
      (∀ sd ∈ n.directories, ∃ ne, sd.name_entry = some ne ∧
        1 ≤ ne.file_index ∧
        ne.file_index ≤ (data.length - u32At data 28) / 8)) d := by
  unfold openArchive at h
  cases hrh : read_header data with
  | error e => rw [hrh] at h; cases h
  | ok ftbl =>
    rw [hrh] at h
    dsimp only at h
    obtain ⟨_, hftbl⟩ := read_header_ok data ftbl hrh
    subst hftbl
    have hall := (rdl_master data (u32At data 28) 200 1 [] d h).1
    apply allDirs_mono _ _ _ d hall
    intro x hx
    obtain ⟨hx1, hx2, _⟩ := hx
    constructor
    · intro f hf
      exact entryIdxOk_div _ _ _ (hx1 f hf)
    · intro sd hsd
      obtain ⟨ne, hne, hok⟩ := hx2 sd hsd
      obtain ⟨ha, hb⟩ := entryIdxOk_div _ _ _ hok
      exact ⟨ne, hne, ha, hb⟩

/-- Witness for claim C3 on the concrete minimal archive archW. -/
theorem c3_child_indices_in_table_witness :
    AllDirs (fun n =>
      (∀ f ∈ n.files, 1 ≤ f.name_entry.file_index ∧
        f.name_entry.file_index ≤ (archW.length - u32At archW 28) / 8) ∧
      (∀ sd ∈ n.directories, ∃ ne, sd.name_entry = some ne ∧
        1 ≤ ne.file_index ∧
        ne.file_index ≤ (archW.length - u32At archW 28) / 8)) rootW :=
  c3_child_indices_in_table archW rootW rfl

/-- Claim C4: in a reachable ZLIB view state (cursor within the expanded
size, block size positive and within the accepted maximum, every cached
block of its computed unpacked length), a successful read returns at most
min(buffer length, expanded_size - cursor) bytes.  The source's clamping
statement on size_left is dead code (its value is discarded), so the bound
comes from the loop structure, not from that statement. -/
theorem c4_read_bounded (infl : List Nat → Nat → Option (List Nat))
    (data : List Nat) (st : FileDataZlib) (bufLen fuel n : Nat)
    (st' : FileDataZlib)
    (hinfl : ∀ i m bs, infl i m = some bs → bs.length = m)
    (hcur : st.cur_offset ≤ st.size)
    (hb : 0 < st.blocksize) (hmax : st.blocksize ≤ ZLIB_MAX_BLOCKSIZE)
    (hwf : CacheWF st)
    (h : zlibRead infl data st bufLen fuel = .ok (n, st')) :
    n ≤ min bufLen (st.size - st.cur_offset) :=
  zlibRead_bound infl data st bufLen fuel n st' hinfl hb hmax hwf h

/-- Witness for claim C4: a concrete 5-byte read on the arch10 view. -/
theorem c4_read_bounded_witness :
    (5 : Nat) ≤ min 5 (zst0.size - zst0.cur_offset) :=
  c4_read_bounded infl0 arch10 zst0 5 20 5 zst0post
    (fun _ _ _ hsome => nomatch hsome)
    (by decide) (by decide) (by decide)
    (fun _ hp => nomatch hp)
    rfl

/-- Claim C5: for every archive accepted by open and every directory in
its tree, the name entries parsed for that directory tile its file-table
region exactly: the sum of their serialized sizes (10 + name_len each)
equals the directory's size, every subdirectory carries its name entry,
and an entry whose end would pass offset+size makes the loop fail with
NameEntrySpanOverrun. -/
theorem c5_name_entries_tile (data : List Nat) (d : Directory)
    (h : openArchive data = .ok d) :
    AllDirs (fun n =>
      sumF n.files + sumD n.directories = n.file_entry.size ∧
      ∀ sd ∈ n.directories, (sd.name_entry).isSome = true) d ∧
    (∀ (recurse : Nat → List Nat → Except HpkError Directory)
       (efuel : Nat) (stack : List Nat) (maxOff cur ftbl : Nat)
       (ne : NameTableEntry),
      cur < maxOff → read_name_entry data cur = .ok ne →
      maxOff < cur + ne.entry_size →
      rdlEntries data ftbl recurse (efuel + 1) stack maxOff cur
        = .error .nameEntrySpanOverrun) := by
  constructor
  · unfold openArchive at h
    cases hrh : read_header data with
    | error e => rw [hrh] at h; cases h
    | ok ftbl =>
      rw [hrh] at h
      dsimp only at h
      have hall := (rdl_master data ftbl 200 1 [] d h).1
      apply allDirs_mono _ _ _ d hall
      intro x hx
      obtain ⟨_, hx2, hx3⟩ := hx
      refine ⟨hx3, ?_⟩
      intro sd hsd
      obtain ⟨ne, hne, _⟩ := hx2 sd hsd
      rw [hne]
      rfl
  · intro recurse efuel stack maxOff cur ftbl ne hcm hne hspan
    rw [rdlEntries]
    rw [if_pos hcm, hne]
    dsimp only
    rw [if_pos hspan]

/-- Witness for claim C5: the tiling invariant on archW's tree, and a
concrete name entry (at offset 4 of archW) overrunning a region ending at
offset 5. -/
theorem c5_name_entries_tile_witness :
    AllDirs (fun n =>
      sumF n.files + sumD n.directories = n.file_entry.size ∧
      ∀ sd ∈ n.directories, (sd.name_entry).isSome = true) rootW ∧
    rdlEntries archW 0 rec0 1 [] 5 4 = .error .nameEntrySpanOverrun :=
  ⟨(c5_name_entries_tile archW rootW rfl).1,
   (c5_name_entries_tile archW rootW rfl).2 rec0 0 [] 5 4 0
     ⟨32, .file, 10, []⟩ (by decide) rfl (by decide)⟩

/-- Claim C6: for both file data view variants and every seek request, the
seek succeeds returning the computed logical target t exactly when
0 ≤ t ≤ size, and fails with the out-of-range error otherwise (leaving the
state untouched, as the failing branches return no new state); seeking to
exactly size succeeds. -/
theorem c6_seek_in_range (p : FileDataPlain) (z : FileDataZlib)
    (s : SeekFrom) :
    (if 0 ≤ seekTarget p.size p.cur_offset s ∧
        seekTarget p.size p.cur_offset s ≤ (p.size : Int)
     then plainSeek p s =
       .ok ((seekTarget p.size p.cur_offset s).toNat,
            { p with
              cur_offset := (seekTarget p.size p.cur_offset s).toNat,
              file_pos := p.base_offset +
                (seekTarget p.size p.cur_offset s).toNat })
     else plainSeek p s = .error .seekOutOfRange) ∧
    (if 0 ≤ seekTarget z.size z.cur_offset s ∧
        seekTarget z.size z.cur_offset s ≤ (z.size : Int)
     then zlibSeek z s =
       .ok ((seekTarget z.size z.cur_offset s).toNat,
            { z with cur_offset := (seekTarget z.size z.cur_offset s).toNat })
     else zlibSeek z s = .error .seekOutOfRange) := by
  constructor
  · cases s with
    | start o =>
      simp only [seekTarget]
      by_cases h : 0 ≤ (o : Int) ∧ (o : Int) ≤ (p.size : Int)
      · rw [if_pos h]
        simp only [plainSeek]
        rw [if_neg (by omega : ¬ p.size < o)]
        simp
      · rw [if_neg h]
        simp only [plainSeek]
        rw [if_pos (by omega : p.size < o)]
    | fromEnd o =>
      simp only [seekTarget]
      by_cases h : 0 ≤ (p.size : Int) + o ∧ (p.size : Int) + o ≤ (p.size : Int)
      · rw [if_pos h]
        simp only [plainSeek]
        rw [if_neg (by omega : ¬ 0 < o),
            if_neg (by omega : ¬ (p.size : Int) + o < 0)]
      · rw [if_neg h]
        simp only [plainSeek]
        by_cases ho : 0 < o
        · rw [if_pos ho]
        · rw [if_neg ho, if_pos (by omega : (p.size : Int) + o < 0)]
    | current o =>
      simp only [seekTarget]
      by_cases h : 0 ≤ (p.cur_offset : Int) + o ∧
          (p.cur_offset : Int) + o ≤ (p.size : Int)
      · rw [if_pos h]
        simp only [plainSeek]
        rw [if_neg (by omega : ¬ (p.cur_offset : Int) + o < 0),
            if_neg (by omega : ¬ (p.size : Int) < (p.cur_offset : Int) + o)]
      · rw [if_neg h]
        simp only [plainSeek]
        by_cases ho : (p.cur_offset : Int) + o < 0
        · rw [if_pos ho]
        · rw [if_neg ho,
              if_pos (by omega : (p.size : Int) < (p.cur_offset : Int) + o)]
  · cases s with
    | start o =>
      simp only [seekTarget]
      by_cases h : 0 ≤ (o : Int) ∧ (o : Int) ≤ (z.size : Int)
      · rw [if_pos h]
        simp only [zlibSeek]
        rw [if_neg (by omega : ¬ z.size < o)]
        simp
      · rw [if_neg h]
        simp only [zlibSeek]
        rw [if_pos (by omega : z.size < o)]
    | fromEnd o =>
      simp only [seekTarget]
      by_cases h : 0 ≤ (z.size : Int) + o ∧ (z.size : Int) + o ≤ (z.size : Int)
      · rw [if_pos h]
        simp only [zlibSeek]
        rw [if_neg (by omega : ¬ 0 < o),
            if_neg (by omega : ¬ (z.size : Int) + o < 0)]
      · rw [if_neg h]
        simp only [zlibSeek]
        by_cases ho : 0 < o
        · rw [if_pos ho]
        · rw [if_neg ho, if_pos (by omega : (z.size : Int) + o < 0)]
    | current o =>
      simp only [seekTarget]
      by_cases h : 0 ≤ (z.cur_offset : Int) + o ∧
          (z.cur_offset : Int) + o ≤ (z.size : Int)
      · rw [if_pos h]
        simp only [zlibSeek]
        rw [if_neg (by omega : ¬ (z.cur_offset : Int) + o < 0),
            if_neg (by omega : ¬ (z.size : Int) < (z.cur_offset : Int) + o)]
      · rw [if_neg h]
        simp only [zlibSeek]
        by_cases ho : (z.cur_offset : Int) + o < 0
        · rw [if_pos ho]
        · rw [if_neg ho,
              if_pos (by omega : (z.size : Int) < (z.cur_offset : Int) + o)]

/-- Claim C7: starting from a cache holding at most 2 decoded blocks (the
bound holds initially for the empty cache), a successful get_block leaves
at most 2 blocks and the requested block is present afterwards, so the
just-inserted block is never the one evicted. -/
theorem c7_cache_bound (infl : List Nat → Nat → Option (List Nat))
    (data : List Nat) (st : FileDataZlib) (idx : Nat)
    (hcap : st.cache.length ≤ 2) :
    ∀ b st', get_block infl data st idx = .ok (b, st') →
      st'.cache.length ≤ 2 ∧ cacheGet st'.cache idx = some b := by
  intro b st' h
  have G := get_block_ok infl data st idx b st' h
  exact ⟨G.2.2.2.2.1 hcap, G.2.2.2.2.2⟩

/-- Witness for claim C7: fetching the last block of arch10 into the empty
cache of zst17. -/
theorem c7_cache_bound_witness :
    zst17post.cache.length ≤ 2 ∧ cacheGet zst17post.cache 1 = some [] :=
  c7_cache_bound infl0 arch10 zst17 1 (by decide) [] zst17post rfl

/-- Claim C8: with 32 header bytes readable, open's header parsing fails
with HeaderInvalid exactly when the little-endian magic differs from
0x4C555042, or header_size < 0x20, or header_size > 0x24, or
filetbl_offset < header_size; when all four checks pass it succeeds and
yields filetbl_offset (the u32 at bytes 0x1c..0x20). -/
theorem c8_header_checks (data : List Nat) (h : 32 ≤ data.length) :
    (read_header data = .error .headerInvalid ↔
      (u32At data 0 ≠ 0x4c555042 ∨ u32At data 4 < 0x20 ∨
       0x24 < u32At data 4 ∨ u32At data 0x1c < u32At data 4)) ∧
    ((u32At data 0 = 0x4c555042 ∧ 0x20 ≤ u32At data 4 ∧
      u32At data 4 ≤ 0x24 ∧ u32At data 4 ≤ u32At data 0x1c) →
      read_header data = .ok (u32At data 0x1c)) := by
  have hb : readBytes data 0 32 = some (data.take 32) := by
    simp [readBytes, h]
  have hmagic : bytesToNat ((data.take 32).take 4) = u32At data 0 := by
    rw [List.take_take]
    simp [u32At]
  have hhs : bytesToNat (((data.take 32).drop 4).take 4) = u32At data 4 := by
    rw [List.drop_take, List.take_take]
    norm_num [u32At]
  have hft : bytesToNat ((data.take 32).drop 28) = u32At data 28 := by
    rw [List.drop_take]
    norm_num [u32At]
  simp only [read_header, hb]
  rw [hmagic, hhs, hft]
  split_ifs with h1 h2 h3 h4
  · constructor
    · simp only [true_iff]
      tauto
    · intro hc
      exact absurd hc.1 h1
  · constructor
    · simp only [true_iff]
      tauto
    · intro hc
      omega
  · constructor
    · simp only [true_iff]
      tauto
    · intro hc
      omega
  · constructor
    · simp only [true_iff]
      tauto
    · intro hc
      omega
  · constructor
    · constructor
      · intro hbad
        cases hbad
      · intro hdisj
        push_neg at h1
        rcases hdisj with hd | hd | hd | hd <;> omega
    · intro hc
      rfl

/-- Witness for claim C8: the four checks pass on archW and header parsing
returns its file-table offset. -/
theorem c8_header_checks_witness : read_header archW = .ok (u32At archW 0x1c) :=
  (c8_header_checks archW (by decide)).2 (by decide)

/-- Claim C9: constructing a file data view always probes exactly 4 bytes
at file_entry.offset straight from the archive file, regardless of
file_entry.size, so construction fails with an I/O error when fewer than 4
bytes remain there (even for a zero-size file); and when the probe reads
exactly the ZLIB magic, construction also fails unless file_entry.size is
at least 12, because the 12-byte ZLIB header is read through the
size-clamped plain reader. -/
theorem c9_probe (data : List Nat) (fentry : FileTableEntry) :
    (data.length < fentry.offset + 4 →
      fileDataNew data fentry = .error .ioError) ∧
    (readBytes data fentry.offset 4 = some [0x5A, 0x4C, 0x49, 0x42] →
      fentry.size < 12 → fileDataNew data fentry = .error .ioError) := by
  constructor
  · intro hlen
    have hn : readBytes data fentry.offset 4 = none := by
      simp only [readBytes,
        if_neg (by omega : ¬ fentry.offset + 4 ≤ data.length)]
    simp [fileDataNew, hn]
  · intro hmag hsize
    have hshort : plainReadExact data (plainFrom fentry) 12
        = .error .ioError := by
      unfold plainReadExact
      exact plainReadExactAux_short data 12 (plainFrom fentry) 12
        (by simp [plainFrom]; omega)
    simp [fileDataNew, hmag, zlibFrom, hshort]

/-- Witness for claim C9: an empty file fails the probe; a 4-byte file
holding exactly the ZLIB magic with declared size 5 fails reading the
12-byte header. -/
theorem c9_probe_witness :
    fileDataNew [] ⟨0, 0⟩ = .error .ioError ∧
    fileDataNew [0x5A, 0x4C, 0x49, 0x42] ⟨0, 5⟩ = .error .ioError :=
  ⟨(c9_probe [] ⟨0, 0⟩).1 (by decide),
   (c9_probe [0x5A, 0x4C, 0x49, 0x42] ⟨0, 5⟩).2 rfl (by decide)⟩

/-- Counterexample to claim C10 as stated: read can panic.  On arch10
(expanded size an exact multiple of the block size, so the last block
decodes to 0 bytes by the C1 bug), seeking to offset 17 and reading 1 byte
reaches a slice indexing with an offset beyond the empty block's length,
the out-of-range panic modelled by panicSliceOOB. -/
theorem c10_cex_read_panics :
    (match zlibFrom arch10 ⟨0, 36⟩ with
     | .error e => Except.error e
     | .ok z =>
       match zlibSeek z (.start 17) with
       | .error e => Except.error e
       | .ok (_, z1) => zlibRead infl0 arch10 z1 1 4)
      = Except.error .panicSliceOOB := rfl

/-- Claim C10 (amended): from any state with cursor within the expanded
size and a positive block size, read never reaches the three named panic
sites: every block index it requests is below the block count, so the
index panic in read_block_offset_and_size cannot fire, and
evict_another_entry is only invoked with at least two cached entries not
all equal to the inserted index, so neither of its panics (nor the key
unwrap) can fire; the slice-indexing panic in the copy, however, is
reachable (see the counterexample). -/
theorem c10_amended_named_panics_unreachable
    (infl : List Nat → Nat → Option (List Nat)) (data : List Nat)
    (st : FileDataZlib) (bufLen fuel : Nat) (e : HpkError)
    (hcur : st.cur_offset ≤ st.size) (hb : 0 < st.blocksize)
    (h : zlibRead infl data st bufLen fuel = .error e) :
    e ≠ .panicIdxOutOfRange ∧ e ≠ .panicEvictEmpty ∧ e ≠ .panicEvictOnly :=
  zlibReadAux_no_named_panic infl data bufLen fuel st 0 bufLen e hb h

/-- Witness for claim C10's amended theorem, applied at the concrete
panicking run: the error it produces is none of the three named panics. -/
theorem c10_amended_witness :
    HpkError.panicSliceOOB ≠ HpkError.panicIdxOutOfRange ∧
    HpkError.panicSliceOOB ≠ HpkError.panicEvictEmpty ∧
    HpkError.panicSliceOOB ≠ HpkError.panicEvictOnly :=
  c10_amended_named_panics_unreachable infl0 arch10 zst17 1 4 .panicSliceOOB
    (by decide) (by decide) rfl
end Hpk
